import Mathlib

/-!
Verification of the crawl-and-extract pipeline of the web-scraping repository
(modules: link_extractor.py, yellowpages_extractor.py, email_scraper.py,
data_cleaner.py).

Shallow embedding conventions:
* URLs, HTML text and email tokens are `List Char` (Python `str`); record fields
  that Python may hold as `None` are `Option _`.
* The network (requests.get) is an oracle parameter.  `_request_text` is
  modelled in full (retries, backoff, 5xx handling) over a per-attempt outcome
  oracle.  The site resolvers take a page-level fetch oracle
  `url -> Except err page` abstracting one whole `_request_text` call.
* BeautifulSoup parsing is external; a fetched page is modelled by the values
  the repository's selector-based extractor helpers produce from it
  (product links, company name, country, website button target, anchor hrefs).
* Regular-expression code (EMAIL_RE.findall, the company-path search, the
  mailto search, the pandas str.contains filter) is embedded with Python `re`
  semantics: scan start positions left to right, greedy quantifiers with
  backtracking, non-overlapping findall, `.` matching any non-newline char.
* Python `set` values are embedded as duplicate-free lists; every consumer in
  the source (set union, set(), sorted()) is order-insensitive, so only
  membership matters.
* time.sleep / random delays are recorded as data (the backoff trace) or
  ignored (politeness delays), never executed.
-/

namespace Scrape

/-! ### Generic character-list utilities -/

/-- Boolean test that the second list begins with the first (pattern) list. -/
def startsWith : List Char → List Char → Bool
  | [], _ => true
  | _ :: _, [] => false
  | p :: ps, s :: ss => p = s && startsWith ps ss

theorem startsWith_self_append (p t : List Char) : startsWith p (p ++ t) = true := by
  induction p with
  | nil => rfl
  | cons a ps ih => simp [startsWith, ih]

theorem startsWith_iff_append (p s : List Char) :
    startsWith p s = true ↔ ∃ t, s = p ++ t := by
  constructor
  · intro h
    induction p generalizing s with
    | nil => exact ⟨s, rfl⟩
    | cons a ps ih =>
      cases s with
      | nil => simp [startsWith] at h
      | cons b ss =>
        simp only [startsWith, Bool.and_eq_true, decide_eq_true_eq] at h
        obtain ⟨t, ht⟩ := ih ss h.2
        exact ⟨t, by simp [h.1, ht]⟩
  · rintro ⟨t, rfl⟩
    exact startsWith_self_append p t

/-- Boolean test that the pattern occurs contiguously somewhere in the list. -/
def containsSeq (p : List Char) : List Char → Bool
  | [] => startsWith p []
  | c :: t => startsWith p (c :: t) || containsSeq p t

theorem containsSeq_iff (p s : List Char) :
    containsSeq p s = true ↔ ∃ u v, s = u ++ p ++ v := by
  induction s with
  | nil =>
    simp only [containsSeq, startsWith_iff_append]
    constructor
    · rintro ⟨t, ht⟩
      exact ⟨[], t, by simpa using ht⟩
    · rintro ⟨u, v, huv⟩
      have hp : p = [] := by
        rcases List.append_eq_nil.mp ((List.append_eq_nil.mp huv.symm).1) with ⟨-, h2⟩
        exact h2
      exact ⟨[], by simp [hp]⟩
  | cons c t ih =>
    simp only [containsSeq, Bool.or_eq_true, startsWith_iff_append, ih]
    constructor
    · rintro (⟨u, hu⟩ | ⟨u, v, huv⟩)
      · exact ⟨[], u, by simpa using hu⟩
      · exact ⟨c :: u, v, by simp [huv]⟩
    · rintro ⟨u, v, huv⟩
      cases u with
      | nil => exact Or.inl ⟨v, by simpa using huv⟩
      | cons a u2 =>
        right
        refine ⟨u2, v, ?_⟩
        have := huv
        simp only [List.cons_append] at this
        exact (List.cons_eq_cons.mp this).2

/-- Python str.strip(): drop whitespace from both ends. -/
def stripChars (l : List Char) : List Char :=
  ((l.dropWhile Char.isWhitespace).reverse.dropWhile Char.isWhitespace).reverse

theorem dropWhile_idem (p : Char → Bool) (l : List Char) :
    (l.dropWhile p).dropWhile p = l.dropWhile p := by
  induction l with
  | nil => rfl
  | cons a t ih =>
    by_cases h : p a = true
    · simp [List.dropWhile, h, ih]
    · simp [List.dropWhile, h]

theorem dropWhile_head_false (p : Char → Bool) (l : List Char) (c : Char)
    (h : (l.dropWhile p).head? = some c) : p c = false := by
  induction l with
  | nil => simp [List.dropWhile] at h
  | cons a t ih =>
    by_cases ha : p a = true
    · rw [List.dropWhile_cons_of_pos ha] at h
      exact ih h
    · rw [List.dropWhile_cons_of_neg ha] at h
      simp only [List.head?_cons, Option.some_inj] at h
      subst h
      simpa using ha

theorem dropWhile_of_head_false (p : Char → Bool) (l : List Char)
    (h : ∀ c, l.head? = some c → p c = false) : l.dropWhile p = l := by
  cases l with
  | nil => rfl
  | cons a t =>
    have := h a rfl
    simp [List.dropWhile, this]

theorem getLast?_dropWhile (p : Char → Bool) (m : List Char) (h : m.dropWhile p ≠ []) :
    (m.dropWhile p).getLast? = m.getLast? := by
  induction m with
  | nil => simp at h
  | cons a t ih =>
    by_cases ha : p a = true
    · rw [List.dropWhile_cons_of_pos ha] at h ⊢
      rw [ih h]
      cases t with
      | nil => simp [List.dropWhile] at h
      | cons b t2 => rw [List.getLast?_cons_cons]
    · rw [List.dropWhile_cons_of_neg ha]

theorem stripChars_of_clean_ends (m : List Char)
    (hh : ∀ c, m.head? = some c → Char.isWhitespace c = false)
    (hl : ∀ c, m.getLast? = some c → Char.isWhitespace c = false) :
    stripChars m = m := by
  unfold stripChars
  rw [dropWhile_of_head_false Char.isWhitespace m hh]
  rw [dropWhile_of_head_false Char.isWhitespace m.reverse (by
    intro c hc
    rw [List.head?_reverse] at hc
    exact hl c hc)]
  rw [List.reverse_reverse]

theorem stripChars_head_false (l : List Char) (c : Char)
    (hc : (stripChars l).head? = some c) : Char.isWhitespace c = false := by
  unfold stripChars at hc
  rw [List.head?_reverse] at hc
  have hne : (l.dropWhile Char.isWhitespace).reverse.dropWhile Char.isWhitespace ≠ [] := by
    intro h
    rw [h] at hc
    simp at hc
  rw [getLast?_dropWhile _ _ hne, List.getLast?_reverse] at hc
  exact dropWhile_head_false _ _ c hc

theorem stripChars_getLast_false (l : List Char) (c : Char)
    (hc : (stripChars l).getLast? = some c) : Char.isWhitespace c = false := by
  unfold stripChars at hc
  rw [List.getLast?_reverse] at hc
  exact dropWhile_head_false _ _ c hc

theorem stripChars_idem (l : List Char) : stripChars (stripChars l) = stripChars l :=
  stripChars_of_clean_ends (stripChars l) (stripChars_head_false l) (stripChars_getLast_false l)

/-- Split at the first occurrence of a separator character; none if absent.
Models Python s.split(sep, 1) when the separator occurs. -/
def splitFirstOn (sep : Char) : List Char → Option (List Char × List Char)
  | [] => none
  | c :: t =>
    if c = sep then some ([], t)
    else
      match splitFirstOn sep t with
      | some (a, b) => some (c :: a, b)
      | none => none

theorem splitFirstOn_sound (sep : Char) (l a b : List Char)
    (h : splitFirstOn sep l = some (a, b)) : l = a ++ sep :: b ∧ sep ∉ a := by
  induction l generalizing a with
  | nil => simp [splitFirstOn] at h
  | cons c t ih =>
    by_cases hc : c = sep
    · simp only [splitFirstOn, if_pos hc, Option.some_inj, Prod.mk.injEq] at h
      subst hc
      obtain ⟨rfl, rfl⟩ := h
      simp
    · simp only [splitFirstOn, if_neg hc] at h
      cases hrec : splitFirstOn sep t with
      | none => rw [hrec] at h; exact absurd h (by simp)
      | some ab =>
        rw [hrec] at h
        obtain ⟨a0, b0⟩ := ab
        simp only [Option.some_inj, Prod.mk.injEq] at h
        obtain ⟨ha, rfl⟩ := h
        obtain ⟨h1, h2⟩ := ih a0 hrec
        subst ha
        constructor
        · simp [h1]
        · intro hmem
          rcases List.mem_cons.mp hmem with h | h
          · exact hc h.symm
          · exact h2 h

theorem splitFirstOn_complete (sep : Char) (a b : List Char) (ha : sep ∉ a) :
    splitFirstOn sep (a ++ sep :: b) = some (a, b) := by
  induction a with
  | nil => simp [splitFirstOn]
  | cons c t ih =>
    have hc : ¬ c = sep := fun h => ha (by simp [h])
    have ht : sep ∉ t := fun h => ha (List.mem_cons_of_mem _ h)
    show splitFirstOn sep (c :: (t ++ sep :: b)) = _
    simp [splitFirstOn, hc, ih ht]

theorem splitFirstOn_none (sep : Char) (l : List Char) (h : splitFirstOn sep l = none) :
    sep ∉ l := by
  induction l with
  | nil => simp
  | cons c t ih =>
    by_cases hc : c = sep
    · simp [splitFirstOn, if_pos hc] at h
    · simp only [splitFirstOn, if_neg hc] at h
      intro hmem
      rcases List.mem_cons.mp hmem with h1 | h1
      · exact hc h1.symm
      · cases hrec : splitFirstOn sep t with
        | none => exact ih hrec h1
        | some ab => rw [hrec] at h; obtain ⟨x, y⟩ := ab; simp at h

/-- Python s.split(sep): full split into fragments (never the empty list). -/
def splitAll (sep : Char) : List Char → List (List Char)
  | [] => [[]]
  | c :: t =>
    if c = sep then [] :: splitAll sep t
    else
      match splitAll sep t with
      | [] => [[c]]
      | h :: r => (c :: h) :: r

/-- Decimal digits of a natural number, via Nat.repr (Python str(n)). -/
def natChars (n : Nat) : List Char :=
  (Nat.repr n).toList

/-! ### Lexicographic order on char lists (Python string comparison) and sorting -/

/-- Python string less-or-equal: lexicographic on code points. -/
def lexLe : List Char → List Char → Bool
  | [], _ => true
  | _ :: _, [] => false
  | a :: as_, b :: bs => if a = b then lexLe as_ bs else decide (a < b)

theorem lexLe_total (x y : List Char) : lexLe x y = true ∨ lexLe y x = true := by
  induction x generalizing y with
  | nil => left; rfl
  | cons a as_ ih =>
    cases y with
    | nil => right; rfl
    | cons b bs =>
      by_cases hab : a = b
      · subst hab
        simp only [lexLe, if_pos rfl]
        exact ih bs
      · rcases lt_trichotomy a b with h | h | h
        · left; simp [lexLe, hab, h]
        · exact absurd h hab
        · right
          have hba : ¬ b = a := fun hh => hab hh.symm
          simp [lexLe, hba, h]

theorem lexLe_trans (x y z : List Char) (h1 : lexLe x y = true) (h2 : lexLe y z = true) :
    lexLe x z = true := by
  induction x generalizing y z with
  | nil => rfl
  | cons a as_ ih =>
    cases y with
    | nil => simp [lexLe] at h1
    | cons b bs =>
      cases z with
      | nil => simp [lexLe] at h2
      | cons c cs =>
        by_cases hab : a = b <;> by_cases hbc : b = c
        · subst hab; subst hbc
          simp only [lexLe, if_pos rfl] at h1 h2 ⊢
          exact ih bs cs h1 h2
        · subst hab
          simp only [lexLe, if_pos rfl] at h1
          simpa [lexLe, hbc] using h2
        · subst hbc
          simpa [lexLe, hab] using h1
        · simp only [lexLe, if_neg hab, decide_eq_true_eq] at h1
          simp only [lexLe, if_neg hbc, decide_eq_true_eq] at h2
          have hac : a < c := lt_trans h1 h2
          have hacne : ¬ a = c := ne_of_lt hac
          simp [lexLe, hacne, hac]

theorem lexLe_antisymm (x y : List Char) (h1 : lexLe x y = true) (h2 : lexLe y x = true) :
    x = y := by
  induction x generalizing y with
  | nil =>
    cases y with
    | nil => rfl
    | cons b bs => simp [lexLe] at h2
  | cons a as_ ih =>
    cases y with
    | nil => simp [lexLe] at h1
    | cons b bs =>
      by_cases hab : a = b
      · subst hab
        simp only [lexLe, if_pos rfl] at h1 h2
        rw [ih bs h1 h2]
      · have hba : ¬ b = a := fun hh => hab hh.symm
        simp only [lexLe, if_neg hab, decide_eq_true_eq] at h1
        simp only [lexLe, if_neg hba, decide_eq_true_eq] at h2
        exact absurd (lt_trans h1 h2) (lt_irrefl a)

/-- Insert into a lexLe-sorted list (helper for the model of Python sorted). -/
def insertSorted (x : List Char) : List (List Char) → List (List Char)
  | [] => [x]
  | y :: t => if lexLe x y then x :: y :: t else y :: insertSorted x t

/-- Model of Python sorted() on a collection of strings: ascending code-point order. -/
def sortEmails (l : List (List Char)) : List (List Char) :=
  l.foldr insertSorted []

theorem insertSorted_perm (x : List Char) (l : List (List Char)) :
    List.Perm (insertSorted x l) (x :: l) := by
  induction l with
  | nil => exact List.Perm.refl _
  | cons y t ih =>
    by_cases h : lexLe x y = true
    · simp [insertSorted, h]
    · simp only [insertSorted, h, if_false, Bool.false_eq_true]
      exact List.Perm.trans (List.Perm.cons y ih) (List.Perm.swap x y t)

theorem sortEmails_perm (l : List (List Char)) : List.Perm (sortEmails l) l := by
  induction l with
  | nil => exact List.Perm.refl _
  | cons a t ih =>
    exact List.Perm.trans (insertSorted_perm a (sortEmails t)) (List.Perm.cons a ih)

theorem insertSorted_sorted (x : List Char) (l : List (List Char))
    (h : l.Pairwise (fun a b => lexLe a b = true)) :
    (insertSorted x l).Pairwise (fun a b => lexLe a b = true) := by
  induction l with
  | nil => simp [insertSorted]
  | cons y t ih =>
    rcases List.pairwise_cons.mp h with ⟨hy, ht⟩
    by_cases hxy : lexLe x y = true
    · rw [show insertSorted x (y :: t) = if lexLe x y then x :: y :: t
          else y :: insertSorted x t from rfl, if_pos hxy]
      refine List.pairwise_cons.mpr ⟨?_, h⟩
      intro b hb
      rcases List.mem_cons.mp hb with rfl | hb
      · exact hxy
      · exact lexLe_trans x y b hxy (hy b hb)
    · rw [show insertSorted x (y :: t) = if lexLe x y then x :: y :: t
          else y :: insertSorted x t from rfl, if_neg (by simpa using hxy)]
      refine List.pairwise_cons.mpr ⟨?_, ih ht⟩
      intro b hb
      have hb2 := (insertSorted_perm x t).mem_iff.mp hb
      rcases List.mem_cons.mp hb2 with rfl | hb2
      · rcases lexLe_total y b with h1 | h1
        · exact h1
        · exact absurd h1 hxy
      · exact hy b hb2

theorem sortEmails_sorted (l : List (List Char)) :
    (sortEmails l).Pairwise (fun a b => lexLe a b = true) := by
  induction l with
  | nil => simp [sortEmails]
  | cons a t ih => exact insertSorted_sorted a (sortEmails t) ih

/-! ### Duplicate-free lists as the embedding of Python sets -/

/-- Add an element to a set-as-list if not already present. -/
def setAdd (s : List (List Char)) (x : List Char) : List (List Char) :=
  if x ∈ s then s else s ++ [x]

/-- Union of set-as-lists (Python set |= / union). -/
def setUnion (s t : List (List Char)) : List (List Char) :=
  t.foldl setAdd s

/-- Python set(l): deduplicate, keeping first occurrences. -/
def dedupList (l : List (List Char)) : List (List Char) :=
  setUnion [] l

theorem setAdd_nodup (s : List (List Char)) (x : List Char) (h : s.Nodup) :
    (setAdd s x).Nodup := by
  unfold setAdd
  split
  · exact h
  · next hx => simpa [List.nodup_append] using ⟨h, fun hmem => hx hmem⟩

theorem mem_setAdd (s : List (List Char)) (x y : List Char) :
    y ∈ setAdd s x ↔ y ∈ s ∨ y = x := by
  unfold setAdd
  split
  · next hx =>
    constructor
    · exact fun h => Or.inl h
    · rintro (h | rfl)
      · exact h
      · exact hx
  · simp

theorem setUnion_nodup (s t : List (List Char)) (h : s.Nodup) : (setUnion s t).Nodup := by
  induction t generalizing s with
  | nil => exact h
  | cons a t2 ih => exact ih (setAdd s a) (setAdd_nodup s a h)

theorem mem_setUnion (s t : List (List Char)) (y : List Char) :
    y ∈ setUnion s t ↔ y ∈ s ∨ y ∈ t := by
  induction t generalizing s with
  | nil => simp [setUnion]
  | cons a t2 ih =>
    show y ∈ setUnion (setAdd s a) t2 ↔ _
    rw [ih (setAdd s a), mem_setAdd]
    constructor
    · rintro ((h | rfl) | h)
      · exact Or.inl h
      · exact Or.inr (List.mem_cons_self _ _)
      · exact Or.inr (List.mem_cons_of_mem _ h)
    · rintro (h | h)
      · exact Or.inl (Or.inl h)
      · rcases List.mem_cons.mp h with rfl | h
        · exact Or.inl (Or.inr rfl)
        · exact Or.inr h

theorem dedupList_nodup (l : List (List Char)) : (dedupList l).Nodup :=
  setUnion_nodup [] l List.nodup_nil

theorem mem_dedupList (l : List (List Char)) (y : List Char) :
    y ∈ dedupList l ↔ y ∈ l := by
  unfold dedupList
  rw [mem_setUnion]
  simp

/-! ### Fetch layer: _request_text (link_extractor.py lines 34-51, email_scraper.py
lines 63-93).  One GET attempt is an oracle outcome: either a raised exception or
a response with a status code and body.  A response with status >= 500 raises and
is retried; any other status returns the body.  After a failed attempt with
attempts remaining the code sleeps backoff_factor ** attempt.  The trace records
the number of attempts, the backoff sleeps, and the final result. -/

/-- Outcome of a single requests.get attempt, as seen by _request_text. -/
inductive Outcome where
  | exn (msg : String)
  | resp (status : Nat) (body : String)
  deriving DecidableEq, Repr

/-- An attempt counts as failed if it raised or had a server-class (>=500) status. -/
def isFail : Outcome → Bool
  | Outcome.exn _ => true
  | Outcome.resp st _ => decide (500 ≤ st)

/-- Message text of the server-status pseudo-exception. -/
def serverMsg : String := "Server "

/-- The underlying cause recorded for a failed attempt (the last_err of the loop). -/
def cause : Outcome → String
  | Outcome.exn m => m
  | Outcome.resp st _ => serverMsg ++ Nat.repr st

/-- Body of a successful attempt. -/
def getBody : Outcome → String
  | Outcome.exn _ => ""
  | Outcome.resp _ b => b

/-- Final result of _request_text: returned body, or the raised RuntimeError
carrying the last underlying cause. -/
inductive FetchResult where
  | ok (body : String)
  | err (msg : String)
  deriving DecidableEq, Repr

/-- Observable trace of one _request_text call. -/
structure FetchTrace where
  attempts : Nat
  sleeps : List ℚ
  result : FetchResult
  deriving DecidableEq, Repr

/-- The retry loop of _request_text, with the current attempt number and the
number of attempts remaining out of cfg.retries.  Mirrors:
for attempt in range(1, retries+1): try ... except: if attempt < retries:
sleep(backoff_factor ** attempt); after the loop raise RuntimeError(last_err). -/
def requestTextGo (b : ℚ) (oracle : Nat → Outcome) : Nat → Nat → FetchTrace
  | _, 0 => FetchTrace.mk 0 [] (FetchResult.err (String.mk []))
  | attempt, 1 =>
    if isFail (oracle attempt) then
      FetchTrace.mk 1 [] (FetchResult.err (cause (oracle attempt)))
    else
      FetchTrace.mk 1 [] (FetchResult.ok (getBody (oracle attempt)))
  | attempt, n + 2 =>
    if isFail (oracle attempt) then
      FetchTrace.mk ((requestTextGo b oracle (attempt + 1) (n + 1)).attempts + 1)
        ((b ^ attempt) :: (requestTextGo b oracle (attempt + 1) (n + 1)).sleeps)
        (requestTextGo b oracle (attempt + 1) (n + 1)).result
    else
      FetchTrace.mk 1 [] (FetchResult.ok (getBody (oracle attempt)))

/-- _request_text(url, cfg, logger) with cfg.retries and cfg.backoff_factor,
over the per-attempt oracle (attempt numbers start at 1). -/
def requestText (retries : Nat) (b : ℚ) (oracle : Nat → Outcome) : FetchTrace :=
  requestTextGo b oracle 1 retries

theorem requestTextGo_attempts_le (b : ℚ) (oracle : Nat → Outcome) :
    ∀ (n a : Nat), (requestTextGo b oracle a n).attempts ≤ n
  | 0, _ => by simp [requestTextGo]
  | 1, a => by
    unfold requestTextGo
    split <;> simp
  | n + 2, a => by
    unfold requestTextGo
    split
    · have h := requestTextGo_attempts_le b oracle (n + 1) (a + 1)
      show (requestTextGo b oracle (a + 1) (n + 1)).attempts + 1 ≤ n + 2
      omega
    · show 1 ≤ n + 2
      omega

theorem requestTextGo_success (b : ℚ) (oracle : Nat → Outcome) :
    ∀ (k n a : Nat), k < n →
    (∀ j, j < k → isFail (oracle (a + j)) = true) →
    isFail (oracle (a + k)) = false →
    requestTextGo b oracle a n =
      FetchTrace.mk (k + 1) ((List.range' a k).map (fun j => b ^ j))
        (FetchResult.ok (getBody (oracle (a + k))))
  | 0, n, a, hk, _, hsucc => by
    rw [Nat.add_zero] at hsucc
    match n, hk with
    | 1, _ =>
      unfold requestTextGo
      rw [if_neg (by simp [hsucc])]
      simp
    | m + 2, _ =>
      unfold requestTextGo
      rw [if_neg (by simp [hsucc])]
      simp
  | k + 1, n, a, hk, hfail, hsucc => by
    have h0 : isFail (oracle a) = true := by
      have := hfail 0 (by omega)
      rwa [Nat.add_zero] at this
    match n, hk with
    | m + 2, hk =>
      unfold requestTextGo
      rw [if_pos h0]
      have hrec := requestTextGo_success b oracle k (m + 1) (a + 1) (by omega)
        (fun j hj => by
          have := hfail (j + 1) (by omega)
          rwa [show a + (j + 1) = a + 1 + j by omega] at this)
        (by
          have := hsucc
          rwa [show a + (k + 1) = a + 1 + k by omega] at this)
      rw [hrec]
      have hr : List.range' a (k + 1) = a :: List.range' (a + 1) k := List.range'_succ a k 1
      rw [hr]
      simp only [List.map_cons]
      have hids : a + 1 + k = a + (k + 1) := by omega
      rw [hids]

theorem requestTextGo_allfail (b : ℚ) (oracle : Nat → Outcome) :
    ∀ (n a : Nat), 1 ≤ n →
    (∀ j, j < n → isFail (oracle (a + j)) = true) →
    requestTextGo b oracle a n =
      FetchTrace.mk n ((List.range' a (n - 1)).map (fun j => b ^ j))
        (FetchResult.err (cause (oracle (a + (n - 1)))))
  | 1, a, _, hfail => by
    unfold requestTextGo
    rw [if_pos (by have := hfail 0 (by omega); rwa [Nat.add_zero] at this)]
    simp
  | n + 2, a, _, hfail => by
    unfold requestTextGo
    rw [if_pos (by have := hfail 0 (by omega); rwa [Nat.add_zero] at this)]
    have hrec := requestTextGo_allfail b oracle (n + 1) (a + 1) (by omega)
      (fun j hj => by
        have := hfail (j + 1) (by omega)
        rwa [show a + (j + 1) = a + 1 + j by omega] at this)
    rw [hrec]
    have hr : List.range' a (n + 2 - 1) = a :: List.range' (a + 1) n := List.range'_succ a n 1
    rw [hr]
    simp only [List.map_cons, Nat.add_sub_cancel]
    rw [show a + 1 + n = a + (n + 2 - 1) by omega]

/-- Claim C2: for retries r >= 1 and backoff factor b, _request_text makes at
most r GET attempts; if the first k attempts fail (exception or status >= 500)
and attempt k+1 <= r succeeds, it performs exactly k+1 attempts with sleeps of
b^1, ..., b^k seconds between successive attempts and returns the body of the
successful attempt; if all r attempts fail it raises a terminal error carrying
the last underlying cause. -/
theorem requestText_retry_policy (r : Nat) (hr : 1 ≤ r) (b : ℚ) (oracle : Nat → Outcome) :
    (requestText r b oracle).attempts ≤ r
    ∧ (∀ k, k + 1 ≤ r →
        (∀ j, 1 ≤ j → j ≤ k → isFail (oracle j) = true) →
        isFail (oracle (k + 1)) = false →
        requestText r b oracle =
          FetchTrace.mk (k + 1) ((List.range' 1 k).map (fun j => b ^ j))
            (FetchResult.ok (getBody (oracle (k + 1)))))
    ∧ ((∀ j, 1 ≤ j → j ≤ r → isFail (oracle j) = true) →
        requestText r b oracle =
          FetchTrace.mk r ((List.range' 1 (r - 1)).map (fun j => b ^ j))
            (FetchResult.err (cause (oracle r)))) := by
  refine ⟨requestTextGo_attempts_le b oracle r 1, ?_, ?_⟩
  · intro k hkr hfail hsucc
    have h := requestTextGo_success b oracle k r 1 (by omega)
      (fun j hj => hfail (1 + j) (by omega) (by omega))
      (by rwa [show 1 + k = k + 1 by omega])
    rw [show (1 : Nat) + k = k + 1 by omega] at h
    exact h
  · intro hfail
    have h := requestTextGo_allfail b oracle r 1 hr
      (fun j hj => hfail (1 + j) (by omega) (by omega))
    rw [show (1 : Nat) + (r - 1) = r by omega] at h
    exact h

/-- Message of the two demo failures. -/
def boomMsg : String := "boom"

/-- Body of the demo success. -/
def bodyMsg : String := "body"

/-- Oracle failing twice, then answering with status 200 and a body. -/
def demoOracle : Nat → Outcome :=
  fun n => if n ≤ 2 then Outcome.exn boomMsg else Outcome.resp 200 bodyMsg

/-- Witness for C2 at retries=3, backoff_factor=2, remote failing twice:
3 attempts, sleeps 2^1 and 2^2, third body returned. -/
theorem requestText_retry_policy_witness :
    requestText 3 2 demoOracle =
      FetchTrace.mk 3 ((List.range' 1 2).map (fun j => (2 : ℚ) ^ j))
        (FetchResult.ok (getBody (demoOracle 3))) :=
  (requestText_retry_policy 3 (by decide) 2 demoOracle).2.1 2 (by decide)
    (fun j h1 h2 => by interval_cases j <;> rfl) (by rfl)

/-! ### Pagination builder: _build_pages (link_extractor.py lines 54-67). -/

/-- The literal path segment injected for page i: "/page/" followed by str(i). -/
def pageSeg (i : Nat) : List Char :=
  ('/' :: 'p' :: 'a' :: 'g' :: 'e' :: '/' :: []) ++ natChars i

/-- _build_pages(search_url, max_pages): page 1 is the base URL; pages 2..max
append /page/N, inserted before the query string when the URL carries one. -/
def buildPages (s : List Char) (maxPages : Nat) : List (List Char) :=
  match splitFirstOn '?' s with
  | some (pre, qs) =>
    s :: (List.range' 2 (maxPages - 1)).map (fun i => pre ++ pageSeg i ++ '?' :: qs)
  | none =>
    s :: (List.range' 2 (maxPages - 1)).map (fun i => s ++ pageSeg i)

theorem cons_map_range'_getElem (s0 : List Char) (f : Nat → List Char) (n N : Nat)
    (h2 : 2 ≤ N) (hN : N ≤ n) :
    (s0 :: (List.range' 2 (n - 1)).map f)[N - 1]? = some (f N) := by
  have hidx : N - 1 = (N - 2) + 1 := by omega
  rw [hidx, List.getElem?_cons_succ, List.getElem?_map]
  have hlt : N - 2 < n - 1 := by omega
  rw [List.getElem?_range' _ _ hlt, show 2 + 1 * (N - 2) = N from by omega]
  rfl

/-- Claim C7: for max_pages n >= 1, _build_pages returns exactly n URLs, the
first being the base URL unmodified; page N in 2..n appends /page/N, and when
the base URL carries a query string the query string is preserved unchanged,
the /page/N segment inserted before the question mark. -/
theorem buildPages_spec (s : List Char) (n : Nat) (hn : 1 ≤ n) :
    (buildPages s n).length = n
    ∧ (buildPages s n)[0]? = some s
    ∧ (splitFirstOn '?' s = none →
        ∀ N, 2 ≤ N → N ≤ n → (buildPages s n)[N - 1]? = some (s ++ pageSeg N))
    ∧ (∀ pre qs, splitFirstOn '?' s = some (pre, qs) →
        (s = pre ++ '?' :: qs ∧ '?' ∉ pre)
        ∧ ∀ N, 2 ≤ N → N ≤ n →
          (buildPages s n)[N - 1]? = some (pre ++ pageSeg N ++ '?' :: qs)) := by
  refine ⟨?_, ?_, ?_, ?_⟩
  · unfold buildPages
    cases h : splitFirstOn '?' s with
    | none =>
      simp only [List.length_cons, List.length_map, List.length_range']
      omega
    | some pq =>
      obtain ⟨pre, qs⟩ := pq
      simp only [List.length_cons, List.length_map, List.length_range']
      omega
  · unfold buildPages
    cases h : splitFirstOn '?' s with
    | none => simp
    | some pq =>
      obtain ⟨pre, qs⟩ := pq
      simp
  · intro hnone N h2 hN
    unfold buildPages
    rw [hnone]
    exact cons_map_range'_getElem s _ n N h2 hN
  · intro pre qs hsome
    refine ⟨splitFirstOn_sound '?' s pre qs hsome, ?_⟩
    intro N h2 hN
    unfold buildPages
    rw [hsome]
    exact cons_map_range'_getElem s _ n N h2 hN

/-! ### Email extraction: EMAIL_RE and _extract_emails_from_html
(email_scraper.py lines 33 and 96-119).

EMAIL_RE = [A-Z0-9._%+-]+@[A-Z0-9.-]+\.[A-Z]{2,} with re.IGNORECASE.
findall semantics: scan start positions left to right; at a position the
local-part class (which excludes the at-sign) must consume its maximal run and
be followed by an at-sign; the domain class run is then split at the rightmost
dot that is followed by at least two letters (greedy backtracking), the
trailing letter run taken maximally; matches are non-overlapping, the scan
resuming after each match. -/

/-- Character class [A-Z0-9._%+-] under re.IGNORECASE (ASCII). -/
def isLocalChar (c : Char) : Bool :=
  c.isAlphanum || c = '.' || c = '_' || c = '%' || c = '+' || c = '-'

/-- Character class [A-Z0-9.-] under re.IGNORECASE (ASCII). -/
def isDomChar (c : Char) : Bool :=
  c.isAlphanum || c = '.' || c = '-'

/-- Greedy backtracking split of the maximal domain-class run: try dot
positions from the right; at position q (>= 1, so the domain part before the
dot is nonempty) require at least two letters after the dot, and take the
maximal letter run (the TLD).  Returns the matched portion of the run. -/
def domSplitAux (run : List Char) : Nat → Option (List Char)
  | 0 => none
  | q + 1 =>
    if hq : q + 1 < run.length then
      if run.get ⟨q + 1, hq⟩ = '.' then
        if 2 ≤ ((run.drop (q + 2)).takeWhile Char.isAlpha).length then
          some (run.take (q + 2) ++ (run.drop (q + 2)).takeWhile Char.isAlpha)
        else domSplitAux run q
      else domSplitAux run q
    else domSplitAux run q

/-- Entry point: highest candidate dot position is run.length - 1. -/
def domSplit (run : List Char) : Option (List Char) :=
  domSplitAux run (run.length - 1)

/-- One EMAIL_RE match attempt anchored at the start of s.  On success returns
the matched text and the remainder of s after the match. -/
def emailMatchHere (s : List Char) : Option (List Char × List Char) :=
  if (s.takeWhile isLocalChar).isEmpty then none
  else
    match s.drop (s.takeWhile isLocalChar).length with
    | '@' :: r2 =>
      match domSplit (r2.takeWhile isDomChar) with
      | some dm =>
        some ((s.takeWhile isLocalChar) ++ '@' :: dm,
          s.drop ((s.takeWhile isLocalChar).length + 1 + dm.length))
      | none => none
    | _ => none

/-- Left-to-right non-overlapping scan (re.findall), with enough fuel;
each step consumes at least one character. -/
def findallAux : Nat → List Char → List (List Char)
  | 0, _ => []
  | fuel + 1, s =>
    match emailMatchHere s with
    | some (m, rest) => m :: findallAux fuel rest
    | none =>
      match s with
      | [] => []
      | _ :: t => findallAux fuel t

/-- EMAIL_RE.findall(html). -/
def findallEmails (s : List Char) : List (List Char) :=
  findallAux s.length s

/-- Case-insensitive prefix test against an all-lowercase pattern
(re.IGNORECASE literal matching, ASCII). -/
def startsWithCI : List Char → List Char → Bool
  | [], _ => true
  | _ :: _, [] => false
  | p :: ps, c :: cs => p = c.toLower && startsWithCI ps cs

/-- The literal mailto: (7 characters). -/
def mailtoLit : List Char :=
  ['m', 'a', 'i', 'l', 't', 'o', ':']

/-- re.search(r"mailto:([^?]+)", href, re.I): leftmost occurrence of mailto:
followed by at least one non-question-mark character; the group is the maximal
run of non-question-mark characters after it. -/
def mailtoSearch : List Char → Option (List Char)
  | [] => none
  | c :: t =>
    if startsWithCI mailtoLit (c :: t) then
      match (c :: t).drop 7 with
      | [] => mailtoSearch t
      | d :: r =>
        if d = '?' then mailtoSearch t
        else some ((d :: r).takeWhile (fun x => decide (x ≠ '?')))
    else mailtoSearch t

/-- A fetched page as _extract_emails_from_html sees it: the raw text scanned
by EMAIL_RE, and the href values of the anchor elements BeautifulSoup finds,
in document order (the HTML parse itself is external). -/
structure Html where
  raw : List Char
  anchorHrefs : List (List Char)
  deriving DecidableEq, Repr

/-- The final normalisation of the function: e.strip().lower(). -/
def cleanTok (l : List Char) : List Char :=
  (stripChars l).map Char.toLower

/-- _extract_emails_from_html(html): empty set for falsy input; otherwise the
set of EMAIL_RE matches unioned with the stripped group of every mailto: href
among the anchors, everything stripped and lower-cased.  Python set values are
embedded as duplicate-free lists (all consumers are order-insensitive). -/
def extractEmailsFromHtml (h : Html) : List (List Char) :=
  if h.raw.isEmpty then []
  else
    dedupList ((findallEmails h.raw ++
      (h.anchorHrefs.filter (fun a => startsWith mailtoLit a)).filterMap
        (fun a => (mailtoSearch a).map stripChars)).map cleanTok)

/-- Document whose only email-shaped token is an asset filename. -/
def assetDoc : String := "<p>junk: myemail@2x-123.jpg</p>"

/-- The asset-like token, as extraction reports it. -/
def assetTok : String := "myemail@2x-123.jpg"

/-- Claim C3: for non-falsy HTML, extraction returns exactly the union of the
EMAIL_RE pattern matches over the raw text and the mailto: address portions (up
to but excluding any question-mark query string) of the anchor hrefs, each
stripped and lower-cased, with set semantics (no duplicates); asset-like tokens
matching the pattern are included, not filtered at this layer. -/
theorem extractEmails_spec (h : Html) (hne : h.raw ≠ []) :
    ((extractEmailsFromHtml h).Nodup
    ∧ ∀ e, e ∈ extractEmailsFromHtml h ↔
        ((∃ m, m ∈ findallEmails h.raw ∧ e = cleanTok m)
        ∨ (∃ a, a ∈ h.anchorHrefs ∧ startsWith mailtoLit a = true ∧
            ∃ g, mailtoSearch a = some g ∧ e = cleanTok g)))
    ∧ assetTok.toList ∈ extractEmailsFromHtml (Html.mk assetDoc.toList []) := by
  have hni : h.raw.isEmpty = false := by
    cases hr : h.raw with
    | nil => exact absurd hr hne
    | cons c t => rfl
  refine ⟨⟨?_, ?_⟩, by decide⟩
  · unfold extractEmailsFromHtml
    rw [hni]
    simp only [Bool.false_eq_true, if_false]
    exact dedupList_nodup _
  · intro e
    unfold extractEmailsFromHtml
    rw [hni]
    simp only [Bool.false_eq_true, if_false]
    rw [mem_dedupList]
    rw [List.mem_map]
    constructor
    · rintro ⟨x, hx, rfl⟩
      rcases List.mem_append.mp hx with hx | hx
      · exact Or.inl ⟨x, hx, rfl⟩
      · rcases List.mem_filterMap.mp hx with ⟨a, ha, hmap⟩
        rcases List.mem_filter.mp ha with ⟨ha2, hstart⟩
        cases hg : mailtoSearch a with
        | none => rw [hg] at hmap; exact absurd hmap (by simp)
        | some g =>
          rw [hg] at hmap
          have hxg : x = stripChars g := by
            simpa using hmap.symm
          right
          refine ⟨a, ha2, hstart, g, hg, ?_⟩
          rw [hxg]
          unfold cleanTok
          rw [stripChars_idem]
    · rintro (⟨m, hm, rfl⟩ | ⟨a, ha, hstart, g, hg, rfl⟩)
      · exact ⟨m, List.mem_append.mpr (Or.inl hm), rfl⟩
      · refine ⟨stripChars g, List.mem_append.mpr (Or.inr ?_), ?_⟩
        · exact List.mem_filterMap.mpr ⟨a, List.mem_filter.mpr ⟨ha, hstart⟩, by rw [hg]; rfl⟩
        · unfold cleanTok
          rw [stripChars_idem]

/-- Raw text of the demo page. -/
def demoDoc : String := "<p>Contact info@example.com.</p><a href=mailto:x>S</a>"

/-- Href of the demo page's anchor. -/
def demoHref : String := "mailto:support@example.org?subject=Help"

/-- Html value mirroring the repository's email-extraction unit test. -/
def demoHtml : Html :=
  Html.mk demoDoc.toList [demoHref.toList]

/-- Witness for C3: the theorem applied at a concrete non-falsy page. -/
theorem extractEmails_spec_witness : (extractEmailsFromHtml demoHtml).Nodup :=
  ((extractEmails_spec demoHtml (by decide)).1).1

/-- Claim C10: falsy (empty or missing) HTML yields the empty set without
raising, whatever anchors a parser might have produced. -/
theorem extractEmails_falsy (anchors : List (List Char)) :
    extractEmailsFromHtml (Html.mk [] anchors) = [] := rfl

/-! ### Record Sanitizer: clean_and_validate_emails (data_cleaner.py lines 5-39).

The pandas pipeline is a chain of row filters over the record list, then a
stable keep-first deduplication by email, then a projection renaming the name
field.  pandas str.contains is used WITHOUT regex=False, so the joined pattern
.webp|.jpg|.jpeg|.png|.gif|.svg|@2x- is a regular expression in which the dot
matches any character except a newline. -/

/-- Input record as produced by the email harvester; a missing email models a
NaN cell (pandas dropna target). -/
structure RawRec where
  name : String
  country : String
  email : Option String
  deriving DecidableEq, Repr

/-- Record surviving the dropna/blank step. -/
structure SRec where
  name : String
  country : String
  email : String
  deriving DecidableEq, Repr

/-- Final output shape {company_name, country, email}. -/
structure CleanRec where
  company_name : String
  country : String
  email : String
  deriving DecidableEq, Repr

/-- Python str.strip on a String. -/
def stripStr (s : String) : String :=
  (stripChars s.toList).asString

/-- Steps 1-2 of the pipeline header: df.dropna(subset=[email]) and
df[df[email].str.strip() != '']; the kept email is the original, unstripped. -/
def step1 : List RawRec → List SRec
  | [] => []
  | r :: t =>
    match r.email with
    | none => step1 t
    | some e => if stripStr e = "" then step1 t else SRec.mk r.name r.country e :: step1 t

/-- df[domain] = df[email].str.split('@').str[-1].str.lower(): the part after
the last at-sign, lower-cased. -/
def domainOf (e : String) : String :=
  (((splitAll '@' e.toList).getLastD []).map Char.toLower).asString

/-- Drop records whose domain is in the configured ignore set. -/
def step2 (ignore : Finset String) (l : List SRec) : List SRec :=
  l.filter (fun r => decide (domainOf r.email ∉ ignore))

/-- The six letter-tails of the dotted image alternatives. -/
def imgWebp : List Char := ['w', 'e', 'b', 'p']

/-- Letter tail of .jpg. -/
def imgJpg : List Char := ['j', 'p', 'g']

/-- Letter tail of .jpeg. -/
def imgJpeg : List Char := ['j', 'p', 'e', 'g']

/-- Letter tail of .png. -/
def imgPng : List Char := ['p', 'n', 'g']

/-- Letter tail of .gif. -/
def imgGif : List Char := ['g', 'i', 'f']

/-- Letter tail of .svg. -/
def imgSvg : List Char := ['s', 'v', 'g']

/-- The literal alternative @2x- (no metacharacters). -/
def img2x : List Char := ['@', '2', 'x', '-']

/-- Regex fragment .lit at the current position: any character except a
newline, then the literal tail. -/
def dotThen (lit : List Char) (s : List Char) : Bool :=
  match s with
  | [] => false
  | c :: t => decide (c ≠ '\n') && startsWith lit t

/-- The alternation of the seven image patterns, anchored at the current
position. -/
def altHere (s : List Char) : Bool :=
  dotThen imgWebp s || dotThen imgJpg s || dotThen imgJpeg s || dotThen imgPng s ||
    dotThen imgGif s || dotThen imgSvg s || startsWith img2x s

/-- re.search of the joined pattern: try every start position. -/
def searchImage : List Char → Bool
  | [] => false
  | c :: t => altHere (c :: t) || searchImage t

/-- Step 3: df[~df[email].str.contains('|'.join(image_patterns))]. -/
def step3 (l : List SRec) : List SRec :=
  l.filter (fun r => !searchImage r.email.toList)

/-- df[tld] = df[domain].str.rsplit('.', n=1).str[-1].str.lower(): the part of
the domain after its last dot, lower-cased. -/
def tldOf (e : String) : String :=
  (((splitAll '.' (domainOf e).toList).getLastD []).map Char.toLower).asString

/-- Python str.isalpha: nonempty and purely alphabetic. -/
def isAlphaStr (s : String) : Bool :=
  !s.toList.isEmpty && s.toList.all Char.isAlpha

/-- Step 4: keep TLDs of length >= 2, without digits, purely alphabetic. -/
def step4 (l : List SRec) : List SRec :=
  ((l.filter (fun r => decide (2 ≤ (tldOf r.email).length))).filter
    (fun r => !(tldOf r.email).toList.any Char.isDigit)).filter
    (fun r => isAlphaStr (tldOf r.email))

/-- df.drop_duplicates(subset=[email], keep='first'): keep the first record
seen for each email, in order. -/
def dedupFirstBy (seen : List String) : List SRec → List SRec
  | [] => []
  | r :: t =>
    if r.email ∈ seen then dedupFirstBy seen t
    else r :: dedupFirstBy (r.email :: seen) t

/-- Rename name to company_name and project the three output columns. -/
def projectRec (r : SRec) : CleanRec :=
  CleanRec.mk r.name r.country r.email

/-- The records surviving steps 1-4, in order (the pre-dedup survivors). -/
def survivors (raw : List RawRec) (ignore : Finset String) : List SRec :=
  step4 (step3 (step2 ignore (step1 raw)))

/-- clean_and_validate_emails(raw_data, ignore_domains). -/
def clean_and_validate_emails (raw : List RawRec) (ignore : Finset String) : List CleanRec :=
  (dedupFirstBy [] (survivors raw ignore)).map projectRec

theorem dedupFirstBy_sublist (seen : List String) (l : List SRec) :
    List.Sublist (dedupFirstBy seen l) l := by
  induction l generalizing seen with
  | nil => exact List.Sublist.refl []
  | cons r t ih =>
    by_cases h : r.email ∈ seen
    · simp only [dedupFirstBy, if_pos h]
      exact List.Sublist.cons r (ih seen)
    · simp only [dedupFirstBy, if_neg h]
      exact List.Sublist.cons₂ r (ih (r.email :: seen))

theorem dedupFirstBy_first (seen : List String) (l : List SRec) :
    ∀ r, r ∈ dedupFirstBy seen l →
      r.email ∉ seen ∧ l.find? (fun y => y.email == r.email) = some r := by
  induction l generalizing seen with
  | nil => intro r hr; simp [dedupFirstBy] at hr
  | cons x t ih =>
    intro r hr
    by_cases h : x.email ∈ seen
    · rw [dedupFirstBy, if_pos h] at hr
      obtain ⟨hns, hfind⟩ := ih seen r hr
      have hne : ¬ (x.email == r.email) = true := by
        intro hb
        have hx2 : x.email = r.email := by simpa using hb
        exact hns (hx2 ▸ h)
      refine ⟨hns, ?_⟩
      rw [List.find?_cons_of_neg _ (by simpa using hne)]
      exact hfind
    · rw [dedupFirstBy, if_neg h] at hr
      rcases List.mem_cons.mp hr with rfl | hr
      · refine ⟨h, ?_⟩
        rw [List.find?_cons_of_pos _ (by simp)]
      · obtain ⟨hns, hfind⟩ := ih (x.email :: seen) r hr
        have hne : r.email ≠ x.email := fun he => hns (by simp [he])
        refine ⟨fun hs => hns (List.mem_cons_of_mem _ hs), ?_⟩
        rw [List.find?_cons_of_neg _ (by simpa using fun hb => hne.symm hb)]
        exact hfind

theorem dedupFirstBy_nodup (seen : List String) (l : List SRec) :
    ((dedupFirstBy seen l).map SRec.email).Nodup := by
  induction l generalizing seen with
  | nil => simp [dedupFirstBy]
  | cons x t ih =>
    by_cases h : x.email ∈ seen
    · rw [dedupFirstBy, if_pos h]
      exact ih seen
    · rw [dedupFirstBy, if_neg h]
      simp only [List.map_cons, List.nodup_cons]
      refine ⟨?_, ih (x.email :: seen)⟩
      intro hmem
      rcases List.mem_map.mp hmem with ⟨r, hr, hre⟩
      exact (dedupFirstBy_first (x.email :: seen) t r hr).1 (by simp [hre])

theorem dedupFirstBy_complete (seen : List String) (l : List SRec) :
    ∀ x, x ∈ l → x.email ∈ seen ∨ ∃ r, r ∈ dedupFirstBy seen l ∧ r.email = x.email := by
  induction l generalizing seen with
  | nil => intro x hx; simp at hx
  | cons y t ih =>
    intro x hx
    by_cases h : y.email ∈ seen
    · rw [dedupFirstBy, if_pos h]
      rcases List.mem_cons.mp hx with rfl | hx
      · exact Or.inl h
      · exact ih seen x hx
    · rw [dedupFirstBy, if_neg h]
      rcases List.mem_cons.mp hx with rfl | hx
      · exact Or.inr ⟨x, List.mem_cons_self _ _, rfl⟩
      · rcases ih (y.email :: seen) x hx with hs | ⟨r, hr, hre⟩
        · rcases List.mem_cons.mp hs with he | hs
          · exact Or.inr ⟨y, List.mem_cons_self _ _, he.symm⟩
          · exact Or.inl hs
        · exact Or.inr ⟨r, List.mem_cons_of_mem _ hr, hre⟩

theorem mem_survivors_props (raw : List RawRec) (ignore : Finset String) (x : SRec)
    (hx : x ∈ survivors raw ignore) :
    domainOf x.email ∉ ignore
    ∧ 2 ≤ (tldOf x.email).length
    ∧ (tldOf x.email).toList.all Char.isAlpha = true
    ∧ (tldOf x.email).toList.any Char.isDigit = false := by
  unfold survivors step4 at hx
  obtain ⟨hx, halpha⟩ := List.mem_filter.mp hx
  obtain ⟨hx, hdig⟩ := List.mem_filter.mp hx
  obtain ⟨hx, hlen⟩ := List.mem_filter.mp hx
  unfold step3 at hx
  obtain ⟨hx, -⟩ := List.mem_filter.mp hx
  unfold step2 at hx
  obtain ⟨-, hig⟩ := List.mem_filter.mp hx
  refine ⟨by simpa using hig, by simpa using hlen, ?_, by simpa using hdig⟩
  have halpha2 := halpha
  simp only [isAlphaStr, Bool.and_eq_true] at halpha2
  exact halpha2.2

/-- Claim C4: the sanitizer output has exactly one row per unique surviving
email, is (the projection of) a sublist of the step-4 survivors in their order,
represents every survivor email, keeps for each email the FIRST survivor
carrying it, and every output email has a domain outside the ignore set and a
top-level label that is purely alphabetic (hence digit-free) of length >= 2. -/
theorem clean_spec (raw : List RawRec) (ignore : Finset String) :
    ((clean_and_validate_emails raw ignore).map CleanRec.email).Nodup
    ∧ (∃ l, List.Sublist l (survivors raw ignore) ∧
        clean_and_validate_emails raw ignore = l.map projectRec)
    ∧ (∀ x, x ∈ survivors raw ignore →
        ∃ r, r ∈ clean_and_validate_emails raw ignore ∧ r.email = x.email)
    ∧ (∀ r, r ∈ clean_and_validate_emails raw ignore →
        ∃ x, (survivors raw ignore).find? (fun y => y.email == r.email) = some x ∧
          projectRec x = r)
    ∧ (∀ r, r ∈ clean_and_validate_emails raw ignore →
        domainOf r.email ∉ ignore
        ∧ 2 ≤ (tldOf r.email).length
        ∧ (tldOf r.email).toList.all Char.isAlpha = true
        ∧ (tldOf r.email).toList.any Char.isDigit = false) := by
  refine ⟨?_, ?_, ?_, ?_, ?_⟩
  · have h := dedupFirstBy_nodup [] (survivors raw ignore)
    unfold clean_and_validate_emails
    rw [List.map_map]
    exact h
  · exact ⟨dedupFirstBy [] (survivors raw ignore),
      dedupFirstBy_sublist [] (survivors raw ignore), rfl⟩
  · intro x hx
    rcases dedupFirstBy_complete [] (survivors raw ignore) x hx with hs | ⟨r, hr, hre⟩
    · simp at hs
    · exact ⟨projectRec r, List.mem_map_of_mem projectRec hr, hre⟩
  · intro r hr
    rcases List.mem_map.mp hr with ⟨x, hx, rfl⟩
    obtain ⟨-, hfind⟩ := dedupFirstBy_first [] (survivors raw ignore) x hx
    exact ⟨x, hfind, rfl⟩
  · intro r hr
    rcases List.mem_map.mp hr with ⟨x, hx, rfl⟩
    have hmem : x ∈ survivors raw ignore :=
      (dedupFirstBy_sublist [] (survivors raw ignore)).subset hx
    exact mem_survivors_props raw ignore x hmem

/-! #### Claim C5: the image-asset filter.  The claim reads the seven patterns
as fixed substrings; the code passes them to pandas str.contains without
regex=False, so each dot is a regex wildcard. -/

/-- The seven alternatives read as literal substrings (the claim's reading). -/
def imgLitFull : List (List Char) :=
  [('.' :: imgWebp), ('.' :: imgJpg), ('.' :: imgJpeg), ('.' :: imgPng),
    ('.' :: imgGif), ('.' :: imgSvg), img2x]

/-- Email containing jpg preceded by a letter, but no dotted literal. -/
def c5Email : String := "ajpg@b.co"

/-- Name field of the C5 record. -/
def c5Name : String := "n"

/-- Country field of the C5 record. -/
def c5Country : String := "c"

/-- Counterexample for claim C5: the email ajpg@b.co contains none of the
seven literal substrings, yet step 3 drops the record, because the dot of
.jpg matches the letter a under regex semantics. -/
theorem step3_literal_counterexample :
    (∀ lit, lit ∈ imgLitFull → containsSeq lit c5Email.toList = false)
    ∧ step3 [SRec.mk c5Name c5Country c5Email] = [] := by decide

/-- The dotted six tails. -/
def imgTails : List (List Char) :=
  [imgWebp, imgJpg, imgJpeg, imgPng, imgGif, imgSvg]

/-- Declarative reading of a match of the regex
.webp|.jpg|.jpeg|.png|.gif|.svg|@2x- : one of the six letter tails occurs
immediately preceded by some non-newline character, or @2x- occurs literally. -/
def imageRegexMatches (e : List Char) : Prop :=
  (∃ lit, lit ∈ imgTails ∧ ∃ u c v, e = u ++ c :: (lit ++ v) ∧ c ≠ '\n')
  ∨ ∃ u v, e = u ++ img2x ++ v

theorem dotThen_iff (lit s : List Char) :
    dotThen lit s = true ↔ ∃ c v, s = c :: (lit ++ v) ∧ c ≠ '\n' := by
  cases s with
  | nil => simp [dotThen]
  | cons c t =>
    simp only [dotThen, Bool.and_eq_true, decide_eq_true_eq, startsWith_iff_append]
    constructor
    · rintro ⟨hc, v, rfl⟩
      exact ⟨c, v, rfl, hc⟩
    · rintro ⟨c2, v, heq, hc2⟩
      obtain ⟨rfl, rfl⟩ := List.cons_eq_cons.mp heq
      exact ⟨hc2, v, rfl⟩

theorem altHere_iff (s : List Char) :
    altHere s = true ↔
      ((∃ lit, lit ∈ imgTails ∧ ∃ c v, s = c :: (lit ++ v) ∧ c ≠ '\n')
        ∨ ∃ v, s = img2x ++ v) := by
  unfold altHere
  simp only [Bool.or_eq_true, dotThen_iff, startsWith_iff_append]
  constructor
  · rintro (((((( h | h) | h) | h) | h) | h) | h)
    all_goals first
      | (exact Or.inr h)
      | (rcases h with ⟨c, v, rfl, hc⟩
         exact Or.inl ⟨_, by simp [imgTails], c, v, rfl, hc⟩)
  · rintro (⟨lit, hlit, c, v, rfl, hc⟩ | h)
    · simp only [imgTails, List.mem_cons, List.not_mem_nil, or_false] at hlit
      rcases hlit with rfl | rfl | rfl | rfl | rfl | rfl
      · exact Or.inl (Or.inl (Or.inl (Or.inl (Or.inl (Or.inl ⟨c, v, rfl, hc⟩)))))
      · exact Or.inl (Or.inl (Or.inl (Or.inl (Or.inl (Or.inr ⟨c, v, rfl, hc⟩)))))
      · exact Or.inl (Or.inl (Or.inl (Or.inl (Or.inr ⟨c, v, rfl, hc⟩))))
      · exact Or.inl (Or.inl (Or.inl (Or.inr ⟨c, v, rfl, hc⟩)))
      · exact Or.inl (Or.inl (Or.inr ⟨c, v, rfl, hc⟩))
      · exact Or.inl (Or.inr ⟨c, v, rfl, hc⟩)
    · exact Or.inr h

theorem searchImage_iff (s : List Char) :
    searchImage s = true ↔ ∃ u v, s = u ++ v ∧ altHere v = true := by
  induction s with
  | nil =>
    constructor
    · intro h
      exact absurd h (by simp [searchImage])
    · rintro ⟨u, v, huv, hv⟩
      obtain ⟨rfl, rfl⟩ := List.append_eq_nil.mp huv.symm
      exact absurd hv (by simp [altHere, dotThen, startsWith, img2x])
  | cons c t ih =>
    simp only [searchImage, Bool.or_eq_true, ih]
    constructor
    · rintro (h | ⟨u, v, huv, hv⟩)
      · exact ⟨[], c :: t, rfl, h⟩
      · exact ⟨c :: u, v, by rw [huv]; rfl, hv⟩
    · rintro ⟨u, v, huv, hv⟩
      cases u with
      | nil =>
        left
        have : v = c :: t := by simpa using huv.symm
        rwa [this] at hv
      | cons a u2 =>
        right
        obtain ⟨rfl, rfl⟩ := List.cons_eq_cons.mp huv
        exact ⟨u2, v, rfl, hv⟩

theorem searchImage_iff_regex (e : List Char) :
    searchImage e = true ↔ imageRegexMatches e := by
  rw [searchImage_iff]
  unfold imageRegexMatches
  constructor
  · rintro ⟨u, v, rfl, hv⟩
    rcases (altHere_iff v).mp hv with ⟨lit, hlit, c, w, rfl, hc⟩ | ⟨w, rfl⟩
    · exact Or.inl ⟨lit, hlit, u, c, w, rfl, hc⟩
    · exact Or.inr ⟨u, w, by simp⟩
  · rintro (⟨lit, hlit, u, c, w, heq, hc⟩ | ⟨u, w, heq⟩)
    · exact ⟨u, c :: (lit ++ w), heq, (altHere_iff _).mpr (Or.inl ⟨lit, hlit, c, w, rfl, hc⟩)⟩
    · exact ⟨u, img2x ++ w, by simpa using heq, (altHere_iff _).mpr (Or.inr ⟨w, rfl⟩)⟩

/-- Claim C5 amended: step 3 keeps a record exactly when its email does NOT
match the regex alternation .webp|.jpg|.jpeg|.png|.gif|.svg|@2x-, in which a
dot matches any non-newline character: a record is dropped exactly when its
email contains webp, jpg, jpeg, png, gif or svg immediately preceded by some
non-newline character, or contains @2x- literally. -/
theorem step3_regex_characterisation (l : List SRec) (r : SRec) :
    r ∈ step3 l ↔ r ∈ l ∧ ¬ imageRegexMatches r.email.toList := by
  unfold step3
  rw [List.mem_filter]
  refine and_congr Iff.rfl ?_
  rw [← searchImage_iff_regex]
  cases hs : searchImage r.email.toList
  · simp [hs]
  · simp [hs]

/-! #### Claim C4 witness material. -/

/-- Ignored domain of the demo run. -/
def demoSpam : String := "spam.com"

/-- Demo ignore set. -/
def demoIgnore : Finset String := {demoSpam}

/-- Demo email kept (appears twice, second occurrence dropped by dedup). -/
def emGoodA : String := "a@b.com"

/-- Demo email on the ignored domain. -/
def emSpam : String := "x@spam.com"

/-- Demo email matching an image pattern. -/
def emJpgD : String := "pic.jpg@x.com"

/-- Demo email with a digit in the TLD. -/
def emNumTld : String := "y@z.a1"

/-- Second demo email kept. -/
def emGoodB : String := "b@c.org"

/-- Name of the first demo record. -/
def nmA : String := "A"

/-- Country of the first demo record. -/
def ctDE : String := "DE"

/-- Name of the second keeper. -/
def nmB : String := "B"

/-- Country of the second keeper. -/
def ctPT : String := "PT"

/-- Placeholder name. -/
def nmZ : String := "Z"

/-- Placeholder country. -/
def ctZZ : String := "ZZ"

/-- Demo raw records: a keeper, an ignored domain, an asset email, a numeric
TLD, a duplicate of the keeper, a second keeper, and a missing email. -/
def demoRaw : List RawRec :=
  [RawRec.mk nmA ctDE (some emGoodA),
    RawRec.mk nmZ ctZZ (some emSpam),
    RawRec.mk nmZ ctZZ (some emJpgD),
    RawRec.mk nmZ ctZZ (some emNumTld),
    RawRec.mk nmZ ctZZ (some emGoodA),
    RawRec.mk nmB ctPT (some emGoodB),
    RawRec.mk nmZ ctZZ none]

/-- Witness for C4: the theorem applied to the demo run; the first keeper is in
the output and its email passes the domain and TLD checks, and the output
emails are duplicate-free. -/
theorem clean_spec_witness :
    ((clean_and_validate_emails demoRaw demoIgnore).map CleanRec.email).Nodup
    ∧ domainOf emGoodA ∉ demoIgnore
    ∧ 2 ≤ (tldOf emGoodA).length := by
  have h := clean_spec demoRaw demoIgnore
  have hmem : CleanRec.mk nmA ctDE emGoodA ∈ clean_and_validate_emails demoRaw demoIgnore := by
    decide
  have h5 := h.2.2.2.2 (CleanRec.mk nmA ctDE emGoodA) hmem
  exact ⟨h.1, h5.1, h5.2.1⟩

/-! ### Profile-URL normalization: _normalize_to_profile_url
(link_extractor.py lines 106-123).

urlparse is external; it is modelled for the absolute scheme://... URLs this
function receives: a valid scheme (letter first, then letters, digits, plus,
hyphen or dot) before the first colon, then //, then the netloc up to the first slash,
question mark or hash, then the path up to the first question mark or hash;
for the uses_params schemes (http and https among them) urlparse then strips
params, cutting the path at the first semicolon of its last slash-separated
segment.  The model keeps the scheme's letter-case verbatim (urlparse lower-cases it;
only the letter-case of the scheme differs, and lower-casing is itself
idempotent, so no property below is affected).  The base_url parameter of the
source function is unused by its body and is dropped here.

The company regex (/en/company/[^/]+-\d+) is embedded with re semantics: scan
start positions left to right; after the literal /en/company/ the class [^/]+
must end at a hyphen followed by at least one digit, backtracking from the
longest run, i.e. the split is at the RIGHTMOST hyphen-digit boundary inside
the maximal slash-free run, and \d+ then takes the maximal digit run. -/

/-- Split a list at the LAST occurrence of a separator character:
list = before ++ sep :: after with the separator absent from after. -/
def splitLastOn (sep : Char) : List Char → Option (List Char × List Char)
  | [] => none
  | a :: t =>
    match splitLastOn sep t with
    | some (p, s) => some (a :: p, s)
    | none => if a = sep then some ([], t) else none

/-- The schemes for which urlparse splits params off the path
(urllib.parse.uses_params). -/
def usesParams : List (List Char) :=
  [[], ['f', 't', 'p'], ['h', 'd', 'l'],
    ['p', 'r', 'o', 's', 'p', 'e', 'r', 'o'], ['h', 't', 't', 'p'],
    ['i', 'm', 'a', 'p'], ['h', 't', 't', 'p', 's'],
    ['s', 'h', 't', 't', 'p'], ['r', 't', 's', 'p'],
    ['r', 't', 's', 'p', 'u'], ['s', 'i', 'p'], ['s', 'i', 'p', 's'],
    ['m', 'm', 's'], ['s', 'f', 't', 'p'], ['t', 'e', 'l']]

/-- urlparse's _splitparams on the path component: when the path contains a
semicolon, cut the path at the first semicolon of its last slash-separated
segment (the part after it becomes .params, excluded from .path); a path with
no slash is cut at its first semicolon. -/
def stripParams (path : List Char) : List Char :=
  if ';' ∈ path then
    match splitLastOn '/' path with
    | some (before, seg) =>
      match splitFirstOn ';' seg with
      | some (s1, _) => before ++ '/' :: s1
      | none => path
    | none =>
      match splitFirstOn ';' path with
      | some (s1, _) => s1
      | none => path
  else path

/-- The .path component: params are stripped exactly when the (lower-cased)
scheme is in uses_params. -/
def paramStrippedPath (sc path : List Char) : List Char :=
  if sc.map Char.toLower ∈ usesParams then stripParams path else path

/-- Characters allowed in a URL scheme after the first (Python scheme_chars). -/
def isSchemeChar (c : Char) : Bool :=
  c.isAlphanum || c = '+' || c = '-' || c = '.'

/-- Python urlparse accepts a scheme iff it is nonempty, starts with a letter
and has only scheme characters. -/
def validScheme : List Char → Bool
  | [] => false
  | c :: t => c.isAlpha && (c :: t).all isSchemeChar

/-- A character that does not end the netloc. -/
def netlocChar (c : Char) : Bool :=
  !(c = '/' || c = '?' || c = '#')

/-- A character that does not end the path. -/
def pathChar (c : Char) : Bool :=
  !(c = '?' || c = '#')

/-- Model of urlparse on scheme://netloc/path...: (scheme, netloc, path),
with params stripped from the path for the uses_params schemes. -/
def parseUrl (u : List Char) : Option (List Char × List Char × List Char) :=
  match splitFirstOn ':' u with
  | none => none
  | some (sc, rest) =>
    if validScheme sc then
      match rest with
      | '/' :: '/' :: r2 =>
        some (sc, r2.takeWhile netlocChar,
          paramStrippedPath sc ((r2.dropWhile netlocChar).takeWhile pathChar))
      | _ => none
    else none

/-- A character other than a slash (the class [^/]). -/
def nonSlashChar (c : Char) : Bool :=
  decide (c ≠ '/')

/-- Head of the list is a digit. -/
def digitHead : List Char → Bool
  | [] => false
  | d :: _ => d.isDigit

/-- Split a list at the RIGHTMOST hyphen that is followed by a digit:
returns (before, after) with list = before ++ hyphen :: after. -/
def rightSplit : List Char → Option (List Char × List Char)
  | [] => none
  | a :: t =>
    match rightSplit t with
    | some (p, s) => some (a :: p, s)
    | none => if a = '-' && digitHead t then some ([], t) else none

/-- Greedy match of [^/]+-\d+ anchored at the start of r: the maximal
slash-free run, split at its rightmost hyphen-digit boundary (the part before
the hyphen must be nonempty), with the maximal digit run after it. -/
def segGreedy (r : List Char) : Option (List Char) :=
  match rightSplit (r.takeWhile nonSlashChar) with
  | some (pre, suf) =>
    if pre.isEmpty then none
    else some (pre ++ '-' :: suf.takeWhile Char.isDigit)
  | none => none

/-- The literal /en/company/ (12 characters). -/
def companyLit : List Char :=
  ['/', 'e', 'n', '/', 'c', 'o', 'm', 'p', 'a', 'n', 'y', '/']

/-- The whole pattern anchored at the start of s: the literal, then the
greedy slug-id segment.  Returns the matched group. -/
def tryCompanyAt (s : List Char) : Option (List Char) :=
  if startsWith companyLit s then
    match segGreedy (s.drop 12) with
    | some seg => some (companyLit ++ seg)
    | none => none
  else none

/-- re.search of the company pattern over the path: leftmost start position. -/
def searchCompany : List Char → Option (List Char)
  | [] => none
  | c :: t =>
    match tryCompanyAt (c :: t) with
    | some g => some g
    | none => searchCompany t

/-- _normalize_to_profile_url(url): falsy input gives None; parse, search the
path for the company segment, and rebuild scheme://netloc + group; None when
the pattern does not match. -/
def normalizeToProfileUrl (u : List Char) : Option (List Char) :=
  if u.isEmpty then none
  else
    match parseUrl u with
    | none => none
    | some (sc, nl, path) =>
      match searchCompany path with
      | none => none
      | some g => some (sc ++ ':' :: '/' :: '/' :: (nl ++ g))

theorem all_takeWhile_self (p : Char → Bool) (l : List Char) :
    (l.takeWhile p).all p = true := by
  induction l with
  | nil => rfl
  | cons a t ih =>
    by_cases h : p a = true
    · rw [List.takeWhile_cons_of_pos h]
      simpa [h] using ih
    · rw [List.takeWhile_cons_of_neg (by simpa using h)]
      rfl

theorem takeWhile_eq_self_of_all (p : Char → Bool) (l : List Char) (h : l.all p = true) :
    l.takeWhile p = l := by
  induction l with
  | nil => rfl
  | cons a t ih =>
    rw [List.all_cons, Bool.and_eq_true] at h
    rw [List.takeWhile_cons_of_pos h.1, ih h.2]

theorem takeWhile_append_stop (p : Char → Bool) (l₁ l₂ : List Char)
    (h1 : l₁.all p = true) (h2 : ∀ c, l₂.head? = some c → p c = false) :
    (l₁ ++ l₂).takeWhile p = l₁ := by
  induction l₁ with
  | nil =>
    cases l₂ with
    | nil => rfl
    | cons c t =>
      show (c :: t).takeWhile p = []
      exact List.takeWhile_cons_of_neg (by simp [h2 c rfl])
  | cons a t ih =>
    rw [List.all_cons, Bool.and_eq_true] at h1
    rw [List.cons_append, List.takeWhile_cons_of_pos h1.1, ih h1.2]

theorem dropWhile_append_stop (p : Char → Bool) (l₁ l₂ : List Char)
    (h1 : l₁.all p = true) (h2 : ∀ c, l₂.head? = some c → p c = false) :
    (l₁ ++ l₂).dropWhile p = l₂ := by
  induction l₁ with
  | nil =>
    exact dropWhile_of_head_false p l₂ h2
  | cons a t ih =>
    rw [List.all_cons, Bool.and_eq_true] at h1
    rw [List.cons_append, List.dropWhile_cons_of_pos h1.1, ih h1.2]

theorem mem_of_mem_takeWhile (p : Char → Bool) (l : List Char) (x : Char)
    (h : x ∈ l.takeWhile p) : x ∈ l := by
  induction l with
  | nil => simpa using h
  | cons a t ih =>
    by_cases hp : p a = true
    · rw [List.takeWhile_cons_of_pos hp] at h
      rcases List.mem_cons.mp h with rfl | h
      · exact List.mem_cons_self _ _
      · exact List.mem_cons_of_mem _ (ih h)
    · rw [List.takeWhile_cons_of_neg (by simpa using hp)] at h
      simp at h

/-- A hyphen followed by a digit occurs somewhere in the list. -/
def hasPair : List Char → Bool
  | [] => false
  | a :: t => (a = '-' && digitHead t) || hasPair t

theorem rightSplit_none_iff (l : List Char) : rightSplit l = none ↔ hasPair l = false := by
  induction l with
  | nil => simp [rightSplit, hasPair]
  | cons a t ih =>
    simp only [rightSplit, hasPair]
    cases hr : rightSplit t with
    | some ps =>
      have ht : hasPair t = true := by
        rcases hh : hasPair t with _ | _
        · exact absurd (ih.mpr hh) (by simp [hr])
        · rfl
      simp [ht]
    | none =>
      have ht : hasPair t = false := ih.mp hr
      rw [ht]
      by_cases hc : (decide (a = '-') && digitHead t) = true
      · simp [hc]
      · simp only [Bool.not_eq_true] at hc
        simp [hc]

theorem rightSplit_sound (l p s : List Char) (h : rightSplit l = some (p, s)) :
    l = p ++ '-' :: s ∧ digitHead s = true ∧ hasPair s = false := by
  induction l generalizing p with
  | nil => simp [rightSplit] at h
  | cons a t ih =>
    simp only [rightSplit] at h
    cases hr : rightSplit t with
    | some ps =>
      obtain ⟨p0, s0⟩ := ps
      rw [hr] at h
      simp only [Option.some_inj, Prod.mk.injEq] at h
      obtain ⟨rfl, rfl⟩ := h
      obtain ⟨ht, hd, hp⟩ := ih p0 hr
      exact ⟨by rw [ht]; rfl, hd, hp⟩
    | none =>
      rw [hr] at h
      by_cases hc : (decide (a = '-') && digitHead t) = true
      · rw [if_pos hc] at h
        simp only [Option.some_inj, Prod.mk.injEq] at h
        obtain ⟨rfl, rfl⟩ := h
        rw [Bool.and_eq_true, decide_eq_true_eq] at hc
        exact ⟨by rw [hc.1]; rfl, hc.2, (rightSplit_none_iff t).mp hr⟩
      · rw [if_neg hc] at h
        cases h

theorem hasPair_of_all_digits (l : List Char) (h : l.all Char.isDigit = true) :
    hasPair l = false := by
  induction l with
  | nil => rfl
  | cons a t ih =>
    rw [List.all_cons, Bool.and_eq_true] at h
    have ha : decide (a = '-') = false := by
      rcases hd : decide (a = '-') with _ | _
      · rfl
      · rw [decide_eq_true_eq] at hd
        rw [hd] at h
        exact absurd h.1 (by decide)
    simp [hasPair, ha, ih h.2]

theorem rightSplit_complete (pre ds : List Char) (hd : digitHead ds = true)
    (hnp : hasPair ds = false) :
    rightSplit (pre ++ '-' :: ds) = some (pre, ds) := by
  induction pre with
  | nil =>
    show rightSplit ('-' :: ds) = some ([], ds)
    simp only [rightSplit]
    rw [(rightSplit_none_iff ds).mpr hnp]
    rw [if_pos (by simp [hd])]
  | cons a p ih =>
    show rightSplit (a :: (p ++ '-' :: ds)) = some (a :: p, ds)
    simp only [rightSplit]
    rw [ih]

theorem segGreedy_sound (r seg : List Char) (h : segGreedy r = some seg) :
    ∃ pre suf, rightSplit (r.takeWhile nonSlashChar) = some (pre, suf) ∧ pre ≠ []
      ∧ seg = pre ++ '-' :: suf.takeWhile Char.isDigit := by
  unfold segGreedy at h
  cases hr : rightSplit (r.takeWhile nonSlashChar) with
  | none => rw [hr] at h; cases h
  | some ps =>
    obtain ⟨pre, suf⟩ := ps
    simp only [hr] at h
    by_cases he : pre.isEmpty = true
    · rw [if_pos he] at h; cases h
    · rw [if_neg he] at h
      refine ⟨pre, suf, rfl, ?_, (Option.some_inj.mp h).symm⟩
      intro hnil
      exact he (by rw [hnil]; rfl)

theorem segGreedy_self (pre ds : List Char) (hpre : pre ≠ []) (hd : digitHead ds = true)
    (hdig : ds.all Char.isDigit = true)
    (hslash : (pre ++ '-' :: ds).all nonSlashChar = true) :
    segGreedy (pre ++ '-' :: ds) = some (pre ++ '-' :: ds) := by
  unfold segGreedy
  rw [takeWhile_eq_self_of_all _ _ hslash]
  simp only [rightSplit_complete pre ds hd (hasPair_of_all_digits ds hdig)]
  rw [if_neg (by
    intro he
    exact hpre (by
      cases pre with
      | nil => rfl
      | cons a t => exact absurd he (by simp)))]
  rw [takeWhile_eq_self_of_all _ _ hdig]

theorem tryCompanyAt_sound (s g : List Char) (h : tryCompanyAt s = some g) :
    startsWith companyLit s = true
    ∧ ∃ seg, segGreedy (s.drop 12) = some seg ∧ g = companyLit ++ seg := by
  unfold tryCompanyAt at h
  by_cases hsw : startsWith companyLit s = true
  · rw [if_pos hsw] at h
    cases hseg : segGreedy (s.drop 12) with
    | none => rw [hseg] at h; cases h
    | some seg =>
      rw [hseg] at h
      exact ⟨hsw, seg, rfl, (Option.some_inj.mp h).symm⟩
  · rw [if_neg hsw] at h
    cases h

theorem searchCompany_sound (path g : List Char) (h : searchCompany path = some g) :
    ∃ u0 s, path = u0 ++ s ∧ tryCompanyAt s = some g := by
  induction path with
  | nil => simp [searchCompany] at h
  | cons c t ih =>
    simp only [searchCompany] at h
    cases ht : tryCompanyAt (c :: t) with
    | some g2 =>
      rw [ht] at h
      exact ⟨[], c :: t, rfl, by rw [ht, Option.some_inj.mp h]⟩
    | none =>
      rw [ht] at h
      obtain ⟨u0, s, hcat, htry⟩ := ih h
      exact ⟨c :: u0, s, by rw [hcat]; rfl, htry⟩

/-- Full decomposition of a successful company-pattern search: the group is
the literal followed by a nonempty slash-free slug, a hyphen, and a nonempty
digit run, all of whose slug and digit characters come from the path. -/
theorem searchCompany_decomp (path g : List Char) (h : searchCompany path = some g) :
    ∃ pre ds, g = companyLit ++ (pre ++ '-' :: ds)
      ∧ pre ≠ [] ∧ digitHead ds = true ∧ ds.all Char.isDigit = true
      ∧ (pre ++ '-' :: ds).all nonSlashChar = true
      ∧ ∀ c, c ∈ pre ++ '-' :: ds → c ∈ path := by
  obtain ⟨u0, s, rfl, htry⟩ := searchCompany_sound path g h
  obtain ⟨hsw, seg, hseg, rfl⟩ := tryCompanyAt_sound s _ htry
  obtain ⟨pre, suf, hrs, hpre, rfl⟩ := segGreedy_sound _ _ hseg
  obtain ⟨hrun, hdH, hnp⟩ := rightSplit_sound _ _ _ hrs
  have hrunall : ((s.drop 12).takeWhile nonSlashChar).all nonSlashChar = true :=
    all_takeWhile_self _ _
  rw [hrun] at hrunall
  have hsufall : suf.all nonSlashChar = true := by
    rw [List.all_append, Bool.and_eq_true] at hrunall
    have := hrunall.2
    rw [List.all_cons, Bool.and_eq_true] at this
    exact this.2
  have hdsall : (suf.takeWhile Char.isDigit).all Char.isDigit = true :=
    all_takeWhile_self _ _
  have hdsH : digitHead (suf.takeWhile Char.isDigit) = true := by
    cases hsuf : suf with
    | nil => rw [hsuf] at hdH; exact absurd hdH (by simp [digitHead])
    | cons d t =>
      rw [hsuf] at hdH
      have hd : d.isDigit = true := hdH
      rw [List.takeWhile_cons_of_pos hd]
      exact hd
  have hmemrun : ∀ c, c ∈ pre ++ '-' :: suf.takeWhile Char.isDigit →
      c ∈ (s.drop 12).takeWhile nonSlashChar := by
    intro c hc
    rw [hrun]
    rcases List.mem_append.mp hc with hc | hc
    · exact List.mem_append.mpr (Or.inl hc)
    · rcases List.mem_cons.mp hc with rfl | hc
      · exact List.mem_append.mpr (Or.inr (List.mem_cons_self _ _))
      · exact List.mem_append.mpr
          (Or.inr (List.mem_cons_of_mem _ (mem_of_mem_takeWhile _ _ _ hc)))
  refine ⟨pre, suf.takeWhile Char.isDigit, rfl, hpre, hdsH, hdsall, ?_, ?_⟩
  · rw [List.all_eq_true]
    intro c hc
    have := hmemrun c hc
    rw [hrun] at this
    exact List.all_eq_true.mp hrunall c this
  · intro c hc
    have h1 := mem_of_mem_takeWhile _ _ _ (hmemrun c hc)
    exact List.mem_append.mpr (Or.inr (List.mem_of_mem_drop h1))

/-- The tail of the company literal after its leading slash. -/
def compTail : List Char :=
  ['e', 'n', '/', 'c', 'o', 'm', 'p', 'a', 'n', 'y', '/']

theorem tryCompanyAt_group_self (pre ds : List Char) (hpre : pre ≠ [])
    (hd : digitHead ds = true) (hdig : ds.all Char.isDigit = true)
    (hslash : (pre ++ '-' :: ds).all nonSlashChar = true) :
    tryCompanyAt (companyLit ++ (pre ++ '-' :: ds)) =
      some (companyLit ++ (pre ++ '-' :: ds)) := by
  unfold tryCompanyAt
  rw [if_pos (startsWith_self_append companyLit _)]
  have hdrop : (companyLit ++ (pre ++ '-' :: ds)).drop 12 = pre ++ '-' :: ds := by
    rw [show (12 : Nat) = companyLit.length from rfl, List.drop_left]
  rw [hdrop]
  simp only [segGreedy_self pre ds hpre hd hdig hslash]

theorem searchCompany_group_self (pre ds : List Char) (hpre : pre ≠ [])
    (hd : digitHead ds = true) (hdig : ds.all Char.isDigit = true)
    (hslash : (pre ++ '-' :: ds).all nonSlashChar = true) :
    searchCompany (companyLit ++ (pre ++ '-' :: ds)) =
      some (companyLit ++ (pre ++ '-' :: ds)) := by
  have htry := tryCompanyAt_group_self pre ds hpre hd hdig hslash
  show searchCompany ('/' :: (compTail ++ (pre ++ '-' :: ds))) = _
  simp only [searchCompany]
  rw [show ('/' :: (compTail ++ (pre ++ '-' :: ds)))
      = companyLit ++ (pre ++ '-' :: ds) from rfl]
  rw [htry]

theorem validScheme_not_colon (sc : List Char) (h : validScheme sc = true) : ':' ∉ sc := by
  cases sc with
  | nil => simp
  | cons c t =>
    intro hmem
    unfold validScheme at h
    rw [Bool.and_eq_true] at h
    have := List.all_eq_true.mp h.2 ':' hmem
    exact absurd this (by decide)

theorem splitLastOn_sound (sep : Char) (l p s : List Char)
    (h : splitLastOn sep l = some (p, s)) : l = p ++ sep :: s := by
  induction l generalizing p with
  | nil => simp [splitLastOn] at h
  | cons a t ih =>
    simp only [splitLastOn] at h
    cases hr : splitLastOn sep t with
    | some ps =>
      obtain ⟨p0, s0⟩ := ps
      rw [hr] at h
      simp only [Option.some_inj, Prod.mk.injEq] at h
      obtain ⟨rfl, rfl⟩ := h
      rw [ih p0 hr]
      rfl
    | none =>
      rw [hr] at h
      by_cases hc : a = sep
      · rw [if_pos hc] at h
        simp only [Option.some_inj, Prod.mk.injEq] at h
        obtain ⟨rfl, rfl⟩ := h
        rw [hc]
        rfl
      · rw [if_neg hc] at h
        cases h

theorem mem_stripParams (path : List Char) (c : Char) (h : c ∈ stripParams path) :
    c ∈ path := by
  unfold stripParams at h
  by_cases hin : ';' ∈ path
  · rw [if_pos hin] at h
    cases hls : splitLastOn '/' path with
    | some bs =>
      obtain ⟨before, seg⟩ := bs
      simp only [hls] at h
      cases hsf : splitFirstOn ';' seg with
      | some s12 =>
        obtain ⟨s1, s2⟩ := s12
        simp only [hsf] at h
        have hl := splitLastOn_sound '/' path before seg hls
        have hf := (splitFirstOn_sound ';' seg s1 s2 hsf).1
        rw [hl, hf]
        rcases List.mem_append.mp h with h | h
        · exact List.mem_append.mpr (Or.inl h)
        · rcases List.mem_cons.mp h with rfl | h
          · exact List.mem_append.mpr (Or.inr (List.mem_cons_self _ _))
          · exact List.mem_append.mpr
              (Or.inr (List.mem_cons_of_mem _ (List.mem_append.mpr (Or.inl h))))
      | none =>
        simp only [hsf] at h
        exact h
    | none =>
      simp only [hls] at h
      cases hsf : splitFirstOn ';' path with
      | some s12 =>
        obtain ⟨s1, s2⟩ := s12
        simp only [hsf] at h
        have hf := (splitFirstOn_sound ';' path s1 s2 hsf).1
        rw [hf]
        exact List.mem_append.mpr (Or.inl h)
      | none =>
        simp only [hsf] at h
        exact h
  · rw [if_neg hin] at h
    exact h

theorem stripParams_of_no_semi (path : List Char) (h : ';' ∉ path) :
    stripParams path = path := by
  unfold stripParams
  rw [if_neg h]

theorem paramStrippedPath_of_no_semi (sc path : List Char) (h : ';' ∉ path) :
    paramStrippedPath sc path = path := by
  unfold paramStrippedPath
  by_cases hm : sc.map Char.toLower ∈ usesParams
  · rw [if_pos hm, stripParams_of_no_semi path h]
  · rw [if_neg hm]

theorem paramStrippedPath_all_pathChar (sc path : List Char) (h : path.all pathChar = true) :
    (paramStrippedPath sc path).all pathChar = true := by
  unfold paramStrippedPath
  by_cases hm : sc.map Char.toLower ∈ usesParams
  · rw [if_pos hm]
    rw [List.all_eq_true] at h ⊢
    intro c hc
    exact h c (mem_stripParams path c hc)
  · rw [if_neg hm]
    exact h

theorem parseUrl_sound (u sc nl path : List Char) (h : parseUrl u = some (sc, nl, path)) :
    validScheme sc = true ∧ ':' ∉ sc ∧ nl.all netlocChar = true ∧ path.all pathChar = true := by
  unfold parseUrl at h
  cases hsp : splitFirstOn ':' u with
  | none => rw [hsp] at h; cases h
  | some scr =>
    obtain ⟨sc0, rest⟩ := scr
    simp only [hsp] at h
    by_cases hv : validScheme sc0 = true
    · rw [if_pos hv] at h
      split at h
      · next r2 =>
        simp only [Option.some_inj, Prod.mk.injEq] at h
        obtain ⟨rfl, rfl, rfl⟩ := h
        exact ⟨hv, validScheme_not_colon _ hv, all_takeWhile_self _ _,
          paramStrippedPath_all_pathChar _ _ (all_takeWhile_self _ _)⟩
      · cases h
    · rw [if_neg hv] at h
      cases h

theorem parseUrl_complete (sc nl g : List Char) (hv : validScheme sc = true)
    (hnl : nl.all netlocChar = true) (hg : g.all pathChar = true)
    (hhead : ∀ c, g.head? = some c → netlocChar c = false)
    (hsemi : ';' ∉ g) :
    parseUrl (sc ++ ':' :: '/' :: '/' :: (nl ++ g)) = some (sc, nl, g) := by
  unfold parseUrl
  rw [splitFirstOn_complete ':' sc _ (validScheme_not_colon sc hv)]
  simp only [if_pos hv]
  rw [takeWhile_append_stop netlocChar nl g hnl hhead]
  rw [dropWhile_append_stop netlocChar nl g hnl hhead]
  rw [takeWhile_eq_self_of_all pathChar g hg]
  rw [paramStrippedPath_of_no_semi sc g hsemi]

/-- Product URL of the spec's normalization example. -/
def prodExample : String := "https://x.com/en/company/example-123456/products/product-a"

/-- Its canonical profile URL. -/
def profExample : String := "https://x.com/en/company/example-123456"

/-- Product URL whose company segment contains a semicolon. -/
def c6SemiProd : String := "https://x.com/en/company/a;b-12/products/p"

/-- The profile URL normalization produces for it. -/
def c6SemiProf : String := "https://x.com/en/company/a;b-12"

/-- Counterexample for claim C6: normalization is NOT idempotent on all of its
own outputs.  The product URL .../en/company/a;b-12/products/p normalizes to
https://x.com/en/company/a;b-12 (the semicolon is not in the last path
segment, so urlparse keeps the path intact); re-normalizing that output,
urlparse strips params from its last segment, leaving path /en/company/a,
which no longer matches the company pattern, so the second application
returns none instead of the same URL. -/
theorem normalizeToProfileUrl_not_idempotent :
    normalizeToProfileUrl c6SemiProd.toList = some c6SemiProf.toList
    ∧ normalizeToProfileUrl c6SemiProf.toList = none := by decide

/-- Claim C6 amended: profile-URL normalization is idempotent on every
produced profile URL that contains no semicolon (urlparse's params handling
cuts the path of a uses_params-scheme URL at the first semicolon of its last
segment, which can destroy the company pattern on re-parsing); on the spec's
product URL it yields the canonical company URL; and it returns none whenever
the parsed path does not contain the company-path pattern. -/
theorem normalizeToProfileUrl_spec :
    (∀ u v, normalizeToProfileUrl u = some v → ';' ∉ v →
        normalizeToProfileUrl v = some v)
    ∧ normalizeToProfileUrl prodExample.toList = some profExample.toList
    ∧ (∀ u sc nl path, parseUrl u = some (sc, nl, path) → searchCompany path = none →
        normalizeToProfileUrl u = none) := by
  refine ⟨?_, by decide, ?_⟩
  · intro u v h hsemi
    unfold normalizeToProfileUrl at h
    by_cases hu : u.isEmpty = true
    · rw [if_pos hu] at h; cases h
    · rw [if_neg hu] at h
      cases hp : parseUrl u with
      | none => rw [hp] at h; cases h
      | some snp =>
        obtain ⟨sc, nl, path⟩ := snp
        simp only [hp] at h
        cases hs : searchCompany path with
        | none => rw [hs] at h; cases h
        | some g =>
          rw [hs] at h
          have hveq : v = sc ++ ':' :: '/' :: '/' :: (nl ++ g) := (Option.some_inj.mp h).symm
          obtain ⟨hvs, hcol, hnlall, hpall⟩ := parseUrl_sound u sc nl path hp
          obtain ⟨pre, ds, hg, hpre, hdh, hdig, hslash, hmem⟩ := searchCompany_decomp path g hs
          have hgp : g.all pathChar = true := by
            rw [hg, List.all_append, Bool.and_eq_true]
            refine ⟨by decide, ?_⟩
            rw [List.all_eq_true]
            intro c hcm
            exact List.all_eq_true.mp hpall c (hmem c hcm)
          have hghead : ∀ c, g.head? = some c → netlocChar c = false := by
            intro c hc
            rw [hg] at hc
            have : c = '/' := by
              have h2 : '/' = c := by simpa [companyLit] using hc
              exact h2.symm
            rw [this]
            rfl
          have hsg : ';' ∉ g := by
            intro hgmem
            apply hsemi
            rw [hveq]
            exact List.mem_append.mpr (Or.inr (List.mem_cons_of_mem _
              (List.mem_cons_of_mem _ (List.mem_cons_of_mem _
                (List.mem_append.mpr (Or.inr hgmem))))))
          rw [hveq]
          unfold normalizeToProfileUrl
          rw [if_neg (by cases sc <;> simp)]
          simp only [parseUrl_complete sc nl g hvs hnlall hgp hghead hsg]
          rw [hg]
          simp only [searchCompany_group_self pre ds hpre hdh hdig hslash]
  · intro u sc nl path hp hs
    unfold normalizeToProfileUrl
    by_cases hu : u.isEmpty = true
    · rw [if_pos hu]
    · rw [if_neg hu]
      simp only [hp, hs]

/-- Witness for C6: the idempotence clause applied at the produced,
semicolon-free profile URL of the concrete product example. -/
theorem normalizeToProfileUrl_spec_witness :
    normalizeToProfileUrl profExample.toList = some profExample.toList :=
  normalizeToProfileUrl_spec.1 prodExample.toList profExample.toList (by decide) (by decide)

/-! ### Email Harvester: scrape_emails_for_profiles (email_scraper.py lines
122-186) and _normalize_url (lines 44-60).

The page fetch oracle stands for one whole _request_text call and yields the
page as the extractor sees it; a failed fetch (the caught exception branch) is
an error value.  urljoin is the external stdlib resolver, passed as an oracle.
Per-profile work never raises: every candidate-page failure is caught, so the
function is total. -/

/-- One input row as the harvester reads it (dict .get semantics: a missing or
None field is none). -/
structure ProfileRow where
  company_name : Option String
  country : Option String
  profile_url : Option String
  website_url : Option String
  deriving DecidableEq, Repr

/-- One output record: one email for one profile. -/
structure EmailRec where
  name : String
  country : String
  email : List Char
  deriving DecidableEq, Repr

/-- Scheme detection of urlparse, reused for _normalize_url. -/
def hasScheme (s : List Char) : Bool :=
  match splitFirstOn ':' s with
  | none => false
  | some (sc, _) => validScheme sc

/-- The default scheme prepended by _normalize_url. -/
def httpsLit : String := "https://"

/-- _normalize_url(url): strip; empty gives empty; prepend https:// when no
scheme is present. -/
def normalizeUrl (u : String) : String :=
  let s := stripChars u.toList
  if s.isEmpty then String.mk []
  else if hasScheme s then s.asString
  else (httpsLit.toList ++ s).asString

/-- One candidate page: fetch and union the extracted emails; a fetch failure
is logged and skipped (the accumulator is unchanged). -/
def harvestStep (fetch : String → Except String Html) (acc : List (List Char))
    (u : String) : List (List Char) :=
  match fetch u with
  | Except.ok h => setUnion acc (extractEmailsFromHtml h)
  | Except.error _ => acc

/-- The candidate-page loop: emails_found accumulated across the pages. -/
def harvest (fetch : String → Except String Html) (urls : List String) : List (List Char) :=
  urls.foldl (harvestStep fetch) []

/-- Candidate pages for one row: the normalized website plus the first
max_pages_per_site crawl paths resolved against it, or the profile URL alone
when no website is present. -/
def triesFor (uj : String → String → String) (crawlPaths : List String) (mp : Nat)
    (row : ProfileRow) : List String :=
  let w := row.website_url.getD (String.mk [])
  if w.isEmpty then [normalizeUrl (row.profile_url.getD (String.mk []))]
  else
    normalizeUrl w :: (crawlPaths.take mp).map (fun p => uj (normalizeUrl w) p)

/-- The body of the per-profile loop: name and country stripped, candidate
pages truncated to max_pages_per_site, the found emails sorted ascending, one
record per email. -/
def perProfileRecords (fetch : String → Except String Html) (uj : String → String → String)
    (crawlPaths : List String) (mp : Nat) (row : ProfileRow) : List EmailRec :=
  let nm := stripStr (row.company_name.getD (String.mk []))
  let ct := stripStr (row.country.getD (String.mk []))
  (sortEmails (harvest fetch ((triesFor uj crawlPaths mp row).take mp))).map
    (fun e => EmailRec.mk nm ct e)

/-- scrape_emails_for_profiles(profiles, email_cfg, request_cfg, logger). -/
def scrape_emails_for_profiles (fetch : String → Except String Html)
    (uj : String → String → String) (crawlPaths : List String) (mp : Nat)
    (profiles : List ProfileRow) : List EmailRec :=
  profiles.foldl (fun results row => results ++ perProfileRecords fetch uj crawlPaths mp row) []

theorem foldl_append_bind (f : ProfileRow → List EmailRec) :
    ∀ (l : List ProfileRow) (init : List EmailRec),
      l.foldl (fun acc row => acc ++ f row) init = init ++ l.bind f
  | [], init => by simp
  | row :: t, init => by
    rw [List.foldl_cons, foldl_append_bind f t (init ++ f row)]
    simp [List.append_assoc]

theorem harvestStep_nodup (fetch : String → Except String Html) (acc : List (List Char))
    (u : String) (h : acc.Nodup) : (harvestStep fetch acc u).Nodup := by
  unfold harvestStep
  cases fetch u with
  | ok page => exact setUnion_nodup _ _ h
  | error e => exact h

theorem harvest_go_nodup (fetch : String → Except String Html) :
    ∀ (urls : List String) (acc : List (List Char)), acc.Nodup →
      (urls.foldl (harvestStep fetch) acc).Nodup
  | [], acc, h => h
  | u :: t, acc, h =>
    harvest_go_nodup fetch t (harvestStep fetch acc u) (harvestStep_nodup fetch acc u h)

theorem harvest_nodup (fetch : String → Except String Html) (urls : List String) :
    (harvest fetch urls).Nodup :=
  harvest_go_nodup fetch urls [] List.nodup_nil

theorem perProfileRecords_emails (fetch : String → Except String Html)
    (uj : String → String → String) (crawlPaths : List String) (mp : Nat) (row : ProfileRow) :
    (perProfileRecords fetch uj crawlPaths mp row).map EmailRec.email
      = sortEmails (harvest fetch ((triesFor uj crawlPaths mp row).take mp)) := by
  unfold perProfileRecords
  rw [List.map_map]
  have hc : (EmailRec.email ∘ fun e =>
      EmailRec.mk (stripStr (row.company_name.getD (String.mk [])))
        (stripStr (row.country.getD (String.mk []))) e) = id := rfl
  rw [hc, List.map_id]

/-- Claim C9: the harvester's output is, in input order, one block per
profile; within a profile's block there is exactly one record per distinct
email found (a permutation of the found set, which is duplicate-free) with the
emails strictly ascending; a profile with no emails found contributes no
records (and the function is total, so no error is raised). -/
theorem scrape_emails_spec (fetch : String → Except String Html)
    (uj : String → String → String) (crawlPaths : List String) (mp : Nat)
    (profiles : List ProfileRow) :
    scrape_emails_for_profiles fetch uj crawlPaths mp profiles
      = profiles.bind (perProfileRecords fetch uj crawlPaths mp)
    ∧ (∀ row, ((perProfileRecords fetch uj crawlPaths mp row).map EmailRec.email).Pairwise
        (fun a b => lexLe a b = true ∧ a ≠ b))
    ∧ (∀ row, List.Perm ((perProfileRecords fetch uj crawlPaths mp row).map EmailRec.email)
        (harvest fetch ((triesFor uj crawlPaths mp row).take mp)))
    ∧ (∀ row, harvest fetch ((triesFor uj crawlPaths mp row).take mp) = [] →
        perProfileRecords fetch uj crawlPaths mp row = []) := by
  refine ⟨?_, ?_, ?_, ?_⟩
  · have h := foldl_append_bind (perProfileRecords fetch uj crawlPaths mp) profiles []
    simpa using h
  · intro row
    rw [perProfileRecords_emails]
    have hs := sortEmails_sorted (harvest fetch ((triesFor uj crawlPaths mp row).take mp))
    have hn : (sortEmails (harvest fetch ((triesFor uj crawlPaths mp row).take mp))).Nodup := by
      rw [List.Perm.nodup_iff (sortEmails_perm _)]
      exact harvest_nodup fetch _
    exact hs.and hn
  · intro row
    rw [perProfileRecords_emails]
    exact sortEmails_perm _
  · intro row h
    unfold perProfileRecords
    rw [h]
    rfl

/-- Company name of the demo profile. -/
def c9Name : String := "Acme"

/-- Country of the demo profile. -/
def c9Country : String := "FR"

/-- Website of the no-email demo profile. -/
def c9Url2 : String := "https://empty.example"

/-- A page with no email-shaped token at all. -/
def c9Doc2 : String := "<p>nothing here</p>"

/-- Demo row whose candidate page yields no emails. -/
def c9Row2 : ProfileRow :=
  ProfileRow.mk (some c9Name) (some c9Country) none (some c9Url2)

/-- Demo fetch oracle: every page is the empty-content page. -/
def c9Fetch : String → Except String Html :=
  fun _ => Except.ok (Html.mk c9Doc2.toList [])

/-- Demo urljoin oracle (unused: the demo crawl-path list is empty). -/
def c9Uj : String → String → String :=
  fun b _ => b

/-- Witness for C9: the no-emails clause applied at a concrete profile whose
pages contain no email: it contributes zero records. -/
theorem scrape_emails_spec_witness :
    perProfileRecords c9Fetch c9Uj [] 3 c9Row2 = [] :=
  (scrape_emails_spec c9Fetch c9Uj [] 3 [c9Row2]).2.2.2 c9Row2 (by decide)

/-! ### Directory-A Profile Resolver: extract_profiles (link_extractor.py
lines 171-274).

A fetched page is modelled by what the selector-based helpers extract from it:
the product links found by _extract_product_links_from_page (a Python set;
modelled as a list in one iteration order, every consumer being
order-insensitive up to which sample product is recorded first), the
company-name text field, the extract_country result (None when absent), the
external-website extraction result, and the country text field used on the
fallback product page.  The fetch oracle stands for one whole _request_text
call.  The run records every URL passed to _request_text, in call order.
Politeness sleeps are ignored.  The base_url argument of the link
normalisation is unused by its body and dropped. -/

/-- A fetched page as extract_profiles consumes it. -/
structure PageView where
  productLinks : List (List Char)
  companyName : String
  country : Option String
  website : Option (List Char)
  countryField : String
  deriving DecidableEq, Repr

/-- One emitted profile record; country is None when extract_country found
nothing and no fallback text was substituted. -/
structure ProfileRecA where
  company_name : String
  country : Option String
  profile_url : List Char
  website_url : List Char
  deriving DecidableEq, Repr

/-- Observable result of one extract_profiles run: the returned records or the
propagated exception, plus every URL fetched, in order. -/
structure RunA where
  outcome : Except String (List ProfileRecA)
  fetched : List (List Char)
  deriving Repr

/-- dict.setdefault(profile, product): keep the existing sample, else append
(dict preserves insertion order). -/
def setdefaultMap (m : List (List Char × List Char)) (k v : List Char) :
    List (List Char × List Char) :=
  if m.any (fun kv => kv.1 = k) then m else m ++ [(k, v)]

/-- Part 1 of extract_profiles: for each search page, fetch (the fetch is NOT
wrapped in try/except: an error stops the whole recursion), extract product
links, and map each to its normalized profile URL keeping the first sample
product per profile.  Returns the map or the propagated error, and the fetched
pages. -/
def scanPages (fetch : List Char → Except String PageView) :
    List (List Char) → List (List Char × List Char) →
      Except String (List (List Char × List Char)) × List (List Char)
  | [], acc => (Except.ok acc, [])
  | u :: rest, acc =>
    match fetch u with
    | Except.error e => (Except.error e, [u])
    | Except.ok pv =>
      let acc2 := pv.productLinks.foldl (fun m p =>
        match normalizeToProfileUrl p with
        | some prof => setdefaultMap m prof p
        | none => m) acc
      let r := scanPages fetch rest acc2
      (r.1, u :: r.2)

/-- The directory's own domain marker checked against the website's netloc. -/
def epStr : String := "europages."

/-- Its characters. -/
def epLit : List Char := epStr.toList

/-- urlparse(website).netloc for the website strings this code sees. -/
def netlocOf (u : List Char) : List Char :=
  match parseUrl u with
  | some (_, nl, _) => nl
  | none =>
    if startsWith ['/', '/'] u then (u.drop 2).takeWhile netlocChar else []

/-- The final website clearing: a nonempty website whose netloc contains
europages. is replaced by the empty string. -/
def finalWebsite (w : List Char) : List Char :=
  if !w.isEmpty && containsSeq epLit (netlocOf w) then [] else w

/-- Python falsiness of the country variable (None or empty string). -/
def countryFalsy : Option String → Bool
  | none => true
  | some s => s.isEmpty

/-- Part 2 loop body for one (profile URL, sample product URL) pair: visit the
profile (a failure is caught and leaves all fields empty); if the website is
still empty and a sample product exists, visit the product page as a
substitute source for website, name and country; finally clear a
europages-hosted website.  Returns the record and the URLs fetched. -/
def processProfile (fetch : List Char → Except String PageView)
    (purl sample : List Char) : ProfileRecA × List (List Char) :=
  let s1 : String × Option String × List Char :=
    match fetch purl with
    | Except.ok pv => (pv.companyName, pv.country, pv.website.getD [])
    | Except.error _ => (String.mk [], some (String.mk []), [])
  let s2 : String × Option String × List Char × List (List Char) :=
    if s1.2.2.isEmpty && !sample.isEmpty then
      match fetch sample with
      | Except.ok pv =>
        (if s1.1.isEmpty then pv.companyName else s1.1,
          if countryFalsy s1.2.1 then some pv.countryField else s1.2.1,
          pv.website.getD [], [purl, sample])
      | Except.error _ => (s1.1, s1.2.1, s1.2.2, [purl, sample])
    else (s1.1, s1.2.1, s1.2.2, [purl])
  (ProfileRecA.mk s2.1 s2.2.1 purl (finalWebsite s2.2.2.1), s2.2.2.2)

/-- Part 2 of extract_profiles over the profile map, in insertion order. -/
def visitProfiles (fetch : List Char → Except String PageView) :
    List (List Char × List Char) → List ProfileRecA × List (List Char)
  | [] => ([], [])
  | ps :: rest =>
    let pr := processProfile fetch ps.1 ps.2
    let r := visitProfiles fetch rest
    (pr.1 :: r.1, pr.2 ++ r.2)

/-- extract_profiles(cfg, logger) for directory A, over the fetch oracle. -/
def extractProfilesA (fetch : List Char → Except String PageView)
    (searchUrl : List Char) (maxPages : Nat) : RunA :=
  match scanPages fetch (buildPages searchUrl maxPages) [] with
  | (Except.error e, tr) => RunA.mk (Except.error e) tr
  | (Except.ok m, tr) =>
    RunA.mk (Except.ok (visitProfiles fetch m).1) (tr ++ (visitProfiles fetch m).2)

theorem scanPages_fail (fetch : List Char → Except String PageView) :
    ∀ (pages : List (List Char)) (acc : List (List Char × List Char)) (k : Nat) (e : String)
      (hk : k < pages.length),
      fetch (pages.get ⟨k, hk⟩) = Except.error e →
      (∀ j (hj : j < pages.length), j < k → (fetch (pages.get ⟨j, hj⟩)).isOk = true) →
      scanPages fetch pages acc = (Except.error e, pages.take (k + 1))
  | [], _, k, e, hk => by simp at hk
  | u :: rest, acc, 0, e, hk => by
    intro hfail _
    have hu : fetch u = Except.error e := hfail
    simp only [scanPages, hu, List.take_succ_cons, List.take_zero]
  | u :: rest, acc, k + 1, e, hk => by
    intro hfail hok
    have hu : (fetch u).isOk = true := hok 0 (by simp) (by omega)
    cases hfu : fetch u with
    | error e2 => rw [hfu] at hu; exact absurd hu (by simp [Except.isOk, Except.toBool])
    | ok pv =>
      simp only [scanPages, hfu]
      have hrec := scanPages_fail fetch rest
        (pv.productLinks.foldl (fun m p =>
          match normalizeToProfileUrl p with
          | some prof => setdefaultMap m prof p
          | none => m) acc)
        k e (by simpa using Nat.lt_of_succ_lt_succ hk)
        hfail
        (fun j hj hjk => hok (j + 1) (by simpa using Nat.succ_lt_succ hj) (by omega))
      rw [hrec]
      rfl

/-- Claim C1 amended: a fetch failure (retries exhausted) on search page k —
all earlier pages having fetched successfully — propagates out of
extract_profiles and aborts the run: the outcome is that error, exactly pages
1..k+1 were fetched (later pages and all profile visits are skipped), and no
records are returned.  By contrast, the per-profile stage never aborts: every
(profile, sample) pair yields a record carrying its profile URL, whatever the
fetch oracle does. -/
theorem extractProfilesA_page_failure (fetch : List Char → Except String PageView)
    (u : List Char) (n k : Nat) (e : String)
    (hk : k < (buildPages u n).length)
    (hfail : fetch ((buildPages u n).get ⟨k, hk⟩) = Except.error e)
    (hok : ∀ j (hj : j < (buildPages u n).length), j < k →
      (fetch ((buildPages u n).get ⟨j, hj⟩)).isOk = true) :
    (extractProfilesA fetch u n).outcome = Except.error e
    ∧ (extractProfilesA fetch u n).fetched = (buildPages u n).take (k + 1)
    ∧ ∀ (fetch2 : List Char → Except String PageView) (purl sample : List Char),
        ((processProfile fetch2 purl sample).1).profile_url = purl := by
  have hscan := scanPages_fail fetch (buildPages u n) [] k e hk hfail hok
  unfold extractProfilesA
  rw [hscan]
  exact ⟨rfl, rfl, fun fetch2 purl sample => rfl⟩

/-- Search URL of the directory-A demo runs. -/
def c1SearchStr : String := "https://www.europages.com/companies/food"

/-- Its characters. -/
def c1SearchUrl : List Char := c1SearchStr.toList

/-- Fetch oracle failing on the first search page. -/
def c1Fetch : List Char → Except String PageView :=
  fun url =>
    if url = c1SearchUrl then Except.error boomMsg
    else Except.ok (PageView.mk [] (String.mk []) none none (String.mk []))

/-- Counterexample for claim C1: with two search pages and page 1's fetch
exhausting its retries, the claim says the failure is logged, page 1
contributes no links, and the run continues with page 2 and the profile
visits; the code propagates the error out of extract_profiles instead: the
outcome is the error, only page 1 was ever fetched, and nothing is emitted. -/
theorem extractProfilesA_counterexample :
    (extractProfilesA c1Fetch c1SearchUrl 2).outcome = Except.error boomMsg
    ∧ (extractProfilesA c1Fetch c1SearchUrl 2).fetched = [c1SearchUrl]
    ∧ (buildPages c1SearchUrl 2).length = 2 :=
  ⟨rfl, rfl, rfl⟩

/-- Witness for the amended C1 theorem, applied at the concrete failing run
(k = 0: the very first page fails). -/
theorem extractProfilesA_page_failure_witness :
    (extractProfilesA c1Fetch c1SearchUrl 2).outcome = Except.error boomMsg :=
  (extractProfilesA_page_failure c1Fetch c1SearchUrl 2 0 boomMsg (by decide) (by rfl)
    (fun j hj hj0 => absurd hj0 (Nat.not_lt_zero j))).1

theorem finalWebsite_clean (w : List Char) :
    containsSeq epLit (netlocOf (finalWebsite w)) = false := by
  unfold finalWebsite
  by_cases h : (!w.isEmpty && containsSeq epLit (netlocOf w)) = true
  · rw [if_pos h]
    rfl
  · rw [if_neg h]
    by_cases hc : containsSeq epLit (netlocOf w) = true
    · have hw : w.isEmpty = true := by
        rcases hwe : w.isEmpty with _ | _
        · exact absurd (by rw [hwe, hc]; rfl) h
        · rfl
      rw [List.isEmpty_iff.mp hw]
      rfl
    · simpa using hc

theorem processProfile_clean (fetch : List Char → Except String PageView)
    (purl sample : List Char) :
    containsSeq epLit (netlocOf ((processProfile fetch purl sample).1).website_url) = false :=
  finalWebsite_clean _

theorem visitProfiles_mem (fetch : List Char → Except String PageView) :
    ∀ (m : List (List Char × List Char)) (r : ProfileRecA),
      r ∈ (visitProfiles fetch m).1 →
      ∃ ps, ps ∈ m ∧ r = (processProfile fetch ps.1 ps.2).1
  | [], r, hr => by simp [visitProfiles] at hr
  | ps :: rest, r, hr => by
    simp only [visitProfiles] at hr
    rcases List.mem_cons.mp hr with rfl | hr
    · exact ⟨ps, List.mem_cons_self _ _, rfl⟩
    · obtain ⟨ps2, hmem, heq⟩ := visitProfiles_mem fetch rest r hr
      exact ⟨ps2, List.mem_cons_of_mem _ hmem, heq⟩

/-- Claim C8 amended: (1) no emitted ProfileRecord has a website_url hosted on
the directory's own domain — the final clearing guarantees the invariant for
every record, whichever source the website came from; (2) however, when the
profile page yields a NONEMPTY website (europages-hosted or not), the fallback
product page is NOT fetched — only the profile URL is requested for that
profile — and if that website is europages-hosted the record's website is
cleared to empty with the name and country fields left as the profile page
gave them; (3) the fallback product fetch happens exactly when the profile
page yielded an empty website and a sample product URL exists. -/
theorem extractProfilesA_website_policy (fetch : List Char → Except String PageView) :
    (∀ (u : List Char) (n : Nat) (rs : List ProfileRecA),
        (extractProfilesA fetch u n).outcome = Except.ok rs →
        ∀ r, r ∈ rs → containsSeq epLit (netlocOf r.website_url) = false)
    ∧ (∀ (purl sample : List Char) (pv : PageView), fetch purl = Except.ok pv →
        (pv.website.getD []).isEmpty = false →
        (processProfile fetch purl sample).2 = [purl]
        ∧ (containsSeq epLit (netlocOf (pv.website.getD [])) = true →
            ((processProfile fetch purl sample).1).website_url = []))
    ∧ (∀ (purl sample : List Char) (pv : PageView), fetch purl = Except.ok pv →
        (pv.website.getD []).isEmpty = true → sample.isEmpty = false →
        (processProfile fetch purl sample).2 = [purl, sample]) := by
  refine ⟨?_, ?_, ?_⟩
  · intro u n rs h r hr
    have hcase : ∃ m, rs = (visitProfiles fetch m).1 := by
      unfold extractProfilesA at h
      cases hsc : scanPages fetch (buildPages u n) [] with
      | mk res tr =>
        rw [hsc] at h
        cases res with
        | error e => cases h
        | ok m => exact ⟨m, (Option.some_inj.mp (congrArg some (Except.ok.inj h))).symm⟩
    obtain ⟨m, rfl⟩ := hcase
    obtain ⟨ps, -, rfl⟩ := visitProfiles_mem fetch m r hr
    exact processProfile_clean fetch ps.1 ps.2
  · intro purl sample pv hfetch hne
    have hcond : ((pv.website.getD []).isEmpty && !sample.isEmpty) = false := by
      rw [hne]
      rfl
    have hpp : processProfile fetch purl sample =
        (ProfileRecA.mk pv.companyName pv.country purl (finalWebsite (pv.website.getD [])),
          [purl]) := by
      simp only [processProfile, hfetch, hcond]
      rfl
    constructor
    · rw [hpp]
    · intro hcontains
      rw [hpp]
      show finalWebsite (pv.website.getD []) = []
      unfold finalWebsite
      rw [if_pos (by rw [hne, hcontains]; rfl)]
  · intro purl sample pv hfetch hemp hsne
    have hcond : ((pv.website.getD []).isEmpty && !sample.isEmpty) = true := by
      rw [hemp, hsne]
      rfl
    show (processProfile fetch purl sample).2 = [purl, sample]
    simp only [processProfile, hfetch, hcond]
    cases fetch sample with
    | ok pv2 => rfl
    | error e => rfl

/-- Search URL of the C8 demo run. -/
def c8SearchStr : String := "https://www.europages.com/companies/wine"

/-- Profile URL discovered in the C8 demo. -/
def c8ProfStr : String := "https://www.europages.com/en/company/acme-123"

/-- Sample product URL of that profile. -/
def c8ProdStr : String := "https://www.europages.com/en/company/acme-123/products/p1"

/-- The europages-hosted website found on the profile page. -/
def c8EuroSite : String := "https://www.europages.com/acme-site"

/-- The external website that the product page would have provided. -/
def c8RealSite : String := "https://real.example"

/-- Company name that the product page would have provided. -/
def c8ProdName : String := "ProdCo"

/-- Fetch oracle of the C8 demo: the search page lists one product; the
profile page has no name, no country and a europages-hosted website; the
product page would supply a real website and a name. -/
def c8Fetch : List Char → Except String PageView :=
  fun url =>
    if url = c8SearchStr.toList then
      Except.ok (PageView.mk [c8ProdStr.toList] (String.mk []) none none (String.mk []))
    else if url = c8ProfStr.toList then
      Except.ok (PageView.mk [] (String.mk []) none (some c8EuroSite.toList) (String.mk []))
    else
      Except.ok (PageView.mk [] c8ProdName none (some c8RealSite.toList) (String.mk []))

/-- Counterexample for claim C8: the profile page yields a europages-hosted
website; the claim says it is cleared AND, the website thereby counting as
empty, the sample product page is fetched as a substitute source.  The code
clears it only after the fallback decision: the run fetches just the search
page and the profile page — the sample product URL is never requested — and
emits the profile with empty name, no country and empty website, instead of
the product page's ProdCo and real.example data. -/
theorem extractProfilesA_c8_counterexample :
    (extractProfilesA c8Fetch c8SearchStr.toList 1).outcome
      = Except.ok [ProfileRecA.mk (String.mk []) none c8ProfStr.toList []]
    ∧ (extractProfilesA c8Fetch c8SearchStr.toList 1).fetched
      = [c8SearchStr.toList, c8ProfStr.toList]
    ∧ c8ProdStr.toList ∉ (extractProfilesA c8Fetch c8SearchStr.toList 1).fetched :=
  ⟨rfl, rfl, by decide⟩

/-- Witness for the amended C8 theorem at the demo profile: the profile-page
website is nonempty, so only the profile URL is fetched, and being
europages-hosted the emitted website is empty. -/
theorem extractProfilesA_website_policy_witness :
    (processProfile c8Fetch c8ProfStr.toList c8ProdStr.toList).2 = [c8ProfStr.toList]
    ∧ ((processProfile c8Fetch c8ProfStr.toList c8ProdStr.toList).1).website_url = [] := by
  have h := (extractProfilesA_website_policy c8Fetch).2.1 c8ProfStr.toList c8ProdStr.toList
    (PageView.mk [] (String.mk []) none (some c8EuroSite.toList) (String.mk []))
    (by rfl) (by decide)
  exact ⟨h.1, h.2 (by decide)⟩

/-- Query-bearing search URL used as the C7 witness input. -/
def demoSearchUrl : String := "https://x.com/search?q=wine"

/-- Its part before the question mark. -/
def demoQPre : String := "https://x.com/search"

/-- Its query string. -/
def demoQs : String := "q=wine"

/-- Witness for C7: max_pages=3 on a query-bearing URL gives 3 pages, page 3
injecting /page/3 before the preserved query string. -/
theorem buildPages_spec_witness :
    (buildPages demoSearchUrl.toList 3).length = 3
    ∧ (buildPages demoSearchUrl.toList 3)[2]? =
        some (demoQPre.toList ++ pageSeg 3 ++ '?' :: demoQs.toList) := by
  have h := buildPages_spec demoSearchUrl.toList 3 (by decide)
  refine ⟨h.1, ?_⟩
  exact (h.2.2.2 demoQPre.toList demoQs.toList (by decide)).2 3 (by decide) (by decide)

end Scrape
